import Mathlib

/-
Verification of the include-dependency-graph engine of EmulatRAppUni.

The engine lives in two scripts:
  src/Python/dead_file_finder.py  — discovery, include resolution, dependency
    graph construction and BFS reachability from entry points;
  src/Python/check_circular.py    — include extraction, path resolution and
    DFS enumeration of elementary include cycles.

File paths are modelled as lists of characters (`Str`); Python dictionaries
keyed by path strings are modelled as association lists in insertion order,
and Python sets used only for membership tests are modelled as lists queried
with membership.  Loops with `while`-style control are modelled with an
explicit iteration-count argument that is always called with an upper bound
on the number of iterations the Python loop can perform; lemmas below show
the bound is never hit.
-/

/-- File-path strings, modelled as their character lists (Python `str`). -/
abbrev Str := List Char

/-- Python `\s` on the ASCII range: the whitespace characters recognised by
`re` and `str.strip` for the files this tool scans. -/
def pySpace (c : Char) : Bool :=
  c = ' ' || c = '\t' || c = '\n' || c = '\r' || c = '\x0b' || c = '\x0c'

/-- Split a path on `/` into raw segments (`"a//b".split("/") = ["a","","b"]`). -/
def splitSlash : Str → List Str
  | [] => [[]]
  | c :: cs =>
    let r := splitSlash cs
    if c = '/' then [] :: r
    else
      match r with
      | [] => [[c]]
      | h :: t => (c :: h) :: t

/-- `pathlib.PurePath.parts` of a relative forward-slash path: the non-empty
segments with `.` segments removed (`..` is kept, as pathlib keeps it). -/
def pathParts (s : Str) : List Str :=
  (splitSlash s).filter (fun t => !t.isEmpty && t != ['.'])

/-- Join path segments with `/`. -/
def joinSegs : List Str → Str
  | [] => []
  | [p] => p
  | p :: ps => p ++ '/' :: joinSegs ps

/-- `str(pathlib.Path(s))` for a relative forward-slash path: drops empty and
`.` segments, keeps `..`, and renders the empty path as `.`. -/
def normPath (s : Str) : Str :=
  match pathParts s with
  | [] => ['.']
  | ps => joinSegs ps

/-- `pathlib.Path(s).name`: the final path component, or empty. -/
def pyName (s : Str) : Str :=
  ((pathParts s).getLast?).getD []

/-- `str(pathlib.Path(s).parent)`: the path without its final component,
rendered as `.` when nothing is left. -/
def pyParent (s : Str) : Str :=
  match (pathParts s).dropLast with
  | [] => ['.']
  | ps => joinSegs ps

/-- `pathlib.Path(s).stem`: the final component without its final extension;
an extension only counts when the last dot is neither the first nor the last
character of the name (CPython's `suffix` rule). -/
def pyStem (s : Str) : Str :=
  let n := pyName s
  if '.' ∈ n then
    let i := n.length - 1 - (n.reverse.indexOf '.')
    if 0 < i ∧ i < n.length - 1 then n.take i else n
  else n

namespace DeadFileFinder

/-- `SOURCE_EXTENSIONS` of dead_file_finder.py. -/
def SOURCE_EXTENSIONS : List Str := [".cpp".data, ".cxx".data, ".cc".data, ".c".data]

/-- `HEADER_EXTENSIONS` of dead_file_finder.py. -/
def HEADER_EXTENSIONS : List Str := [".h".data, ".hpp".data, ".hxx".data, ".inl".data]

/-- `ALL_EXTENSIONS = SOURCE_EXTENSIONS | HEADER_EXTENSIONS`.  The Python
value is a set whose iteration order is unspecified; it is only ever iterated
to generate sibling candidates, all enqueued at the same BFS depth, so the
order fixed here does not affect any reported field. -/
def ALL_EXTENSIONS : List Str := SOURCE_EXTENSIONS ++ HEADER_EXTENSIONS

/-- `MAIN_CANDIDATES` of dead_file_finder.py. -/
def MAIN_CANDIDATES : List Str :=
  ["main.cpp".data, "Main.cpp".data, "main.cxx".data, "main.cc".data]

/-- The `FileNode` dataclass (fields not read by the analyses under
verification — `abs_path`, `size_bytes`, `raw_includes`, `is_grain` — are
omitted).  The dataclass defaults `reachable=False`, `depth=-1`,
`is_entry=False` are the Lean field defaults. -/
structure FileNode where
  resolved_deps : List Str := []
  included_by : List Str := []
  reachable : Bool := false
  depth : Int := -1
  is_entry : Bool := false
deriving DecidableEq, Repr

/-- The `files` dict: relative path key to node, in insertion order. -/
abbrev Files := List (Str × FileNode)

/-- The `BrokenInclude` dataclass. -/
structure BrokenInclude where
  includer : Str
  raw_include : Str
  line_number : Nat
deriving DecidableEq, Repr

/-- `rel in files` for the files dict. -/
def isKey (fs : Files) (k : Str) : Bool :=
  (fs.lookup k).isSome

/-- `files[k].reachable` (false when the key is absent; the Python code only
queries keys that are present). -/
def reachOf (fs : Files) (k : Str) : Bool :=
  ((fs.lookup k).map FileNode.reachable).getD false

/-- `files[k].depth` (-1 when the key is absent). -/
def depthOf (fs : Files) (k : Str) : Int :=
  ((fs.lookup k).map FileNode.depth).getD (-1)

/-- Step 1 of `resolve_include`: the literal joined onto the includer's
directory and normalised (`str(Path(candidate))`). -/
def relative_candidate (raw includer_rel : Str) : Str :=
  let includerDir0 := pyParent includer_rel
  let includerDir := if includerDir0 = ['.'] then [] else includerDir0
  let candidate := if includerDir ≠ [] then includerDir ++ '/' :: raw else raw
  normPath candidate

/-- The `while stripped.startswith('../')` loop of `resolve_include` step 3. -/
def stripDotDot : Str → Str
  | '.' :: '.' :: '/' :: rest => stripDotDot rest
  | s => s

/-- Step 4 of `resolve_include`: `for n in range(len(raw_parts), 0, -1)`,
matching keys by raw string suffix; the argument `n` is the current suffix
length.  With more than one match and at least two suffix components, the
candidates are narrowed to those sharing the includer's top-level directory. -/
def trailing_match (rawParts : List Str) (includer_rel : Str) (fileKeys : List Str) :
    Nat → Option Str
  | 0 => none
  | n + 1 =>
    let suffix := joinSegs (rawParts.drop (rawParts.length - (n + 1)))
    match fileKeys.filter (fun r => suffix.isSuffixOf r) with
    | [] => trailing_match rawParts includer_rel fileKeys n
    | [m] => some m
    | _ :: _ :: _ =>
      if n + 1 ≥ 2 then
        let includerTop := ((pathParts includer_rel).head?).getD []
        let sameTree := (fileKeys.filter (fun r => suffix.isSuffixOf r)).filter
          (fun m => match (pathParts m).head? with
                    | some t => t == includerTop
                    | none => false)
        match sameTree with
        | [m] => some m
        | _ => trailing_match rawParts includer_rel fileKeys n
      else trailing_match rawParts includer_rel fileKeys n

/-- `resolve_include(raw, includer_rel, files, root)` of dead_file_finder.py.
The `files` dict enters only through its key list (in insertion order), and
`root` is never read by the Python function body. -/
def resolve_include (raw includer_rel : Str) (fileKeys : List Str) : Option Str :=
  let normed := relative_candidate raw includer_rel
  if normed ∈ fileKeys then some normed
  else if raw ∈ fileKeys then some raw
  else
    let stripped := stripDotDot raw
    if stripped ∈ fileKeys then some stripped
    else
      match trailing_match (pathParts raw) includer_rel fileKeys (pathParts raw).length with
      | some r => some r
      | none =>
        let basename := pyName raw
        match fileKeys.filter (fun r => pyName r == basename) with
        | [m] => some m
        | _ => none

/-- `build_dependency_graph`, as a pure function of the artifacts and their
extracted raw includes (the Python function reads the raw includes from disk
with `parse_includes` and then resolves each one; unreadable files simply
contribute an empty include list).  Returns the forward adjacency
(`resolved_deps`, in include order per file) and the broken-include list (in
file order, then include order).  The reverse adjacency `included_by` is
derivable from the forward one and is not consumed by reachability or cycle
analysis. -/
def build_dependency_graph (files : List (Str × List (Str × Nat))) :
    List (Str × List Str) × List BrokenInclude :=
  let keys := files.map Prod.fst
  (files.map (fun f => (f.1, f.2.filterMap (fun i => resolve_include i.1 f.1 keys))),
   files.flatMap (fun f => f.2.filterMap (fun i =>
     if (resolve_include i.1 f.1 keys).isSome then none
     else some ⟨f.1, i.1, i.2⟩)))

/-- Match an exact literal at the head of a string, returning the rest. -/
def dropLit : Str → Str → Option Str
  | [], s => some s
  | _ :: _, [] => none
  | c :: cs, d :: ds => if c = d then dropLit cs ds else none

/-- Scan up to the next `"` for the capture group `([^"]+)` of
`INCLUDE_PATTERN`; fails when no closing quote follows. -/
def take_until_quote : Str → Option Str
  | [] => none
  | c :: cs => if c = '"' then some [] else (take_until_quote cs).map (c :: ·)

/-- Attempt to match `INCLUDE_PATTERN = #\s*include\s+"([^"]+)"` at the head
of the string, returning the capture group. -/
def match_include_at (cs : Str) : Option Str :=
  match cs with
  | [] => none
  | c0 :: rest =>
    if c0 = '#' then
      match dropLit "include".data (rest.dropWhile pySpace) with
      | none => none
      | some r2 =>
        match r2 with
        | [] => none
        | c :: r3 =>
          if pySpace c then
            match r3.dropWhile pySpace with
            | [] => none
            | b :: r4 =>
              if b = '"' then
                match take_until_quote r4 with
                | some cap => if cap = [] then none else some cap
                | none => none
              else none
          else none
    else none

/-- `INCLUDE_PATTERN.search(line)`: the leftmost match of the quoted-include
pattern in a line, as used by `parse_includes`. -/
def search_include : Str → Option Str
  | [] => none
  | c :: cs =>
    match match_include_at (c :: cs) with
    | some cap => some cap
    | none => search_include cs

/-- One line of `parse_includes`: the first quoted-include match of the line
with backslashes replaced by forward slashes (`m.group(1).replace('\\','/')`). -/
def parse_include_line (line : Str) : Option Str :=
  (search_include line).map (List.map (fun c => if c = '\\' then '/' else c))

/-- The sibling candidates generated at a visited node by the implicit
`.cpp <-> .h` pairing loop of `walk_reachability`: same directory, same stem,
each configured extension in turn. -/
def sib_candidates (current : Str) : List Str :=
  let stem := pyStem current
  let dirPre := pyParent current
  ALL_EXTENSIONS.map (fun ext =>
    if dirPre ≠ [] ∧ dirPre ≠ ['.'] then dirPre ++ '/' :: (stem ++ ext) else stem ++ ext)

/-- The neighbours a dequeued node offers to the BFS, in code order: first
the `resolved_deps` targets, then the sibling candidates that differ from the
node itself; in both cases only discovered keys are kept.  (For deps the
Python code indexes `files[dep]` directly — `resolve_include` only ever
returns discovered keys, so the explicit key filter is the totalised form of
that indexing.) -/
def walk_neighbors (fs : Files) (current : Str) : List Str :=
  (((fs.lookup current).map FileNode.resolved_deps).getD []).filter (fun d => isKey fs d)
  ++ (sib_candidates current).filter (fun s => s != current && isKey fs s)

/-- Set `reachable=True, depth=d` on a key (BFS visit of a fresh node). -/
def mark_visited (fs : Files) (n : Str) (d : Int) : Files :=
  fs.map (fun p => if p.1 = n then (p.1, { p.2 with reachable := true, depth := d }) else p)

/-- Set `is_entry=True, reachable=True, depth=0` on a key (entry seeding). -/
def mark_entry (fs : Files) (e : Str) : Files :=
  fs.map (fun p =>
    if p.1 = e then (p.1, { p.2 with reachable := true, depth := 0, is_entry := true }) else p)

/-- One iteration of the seeding loop of `walk_reachability`: an entry point
present in the files dict is marked, enqueued at depth 0 and added to the
visited set (a Python set, so re-adding is a no-op, while the queue append is
unconditional). -/
def seed_step (st : Files × List Str × List (Str × Nat)) (e : Str) :
    Files × List Str × List (Str × Nat) :=
  if isKey st.1 e then
    (mark_entry st.1 e,
     (if e ∈ st.2.1 then st.2.1 else st.2.1 ++ [e]),
     st.2.2 ++ [(e, 0)])
  else st

/-- The seeding loop of `walk_reachability` over the entry-point list. -/
def seed_entries (files : Files) (entry_points : List Str) :
    Files × List Str × List (Str × Nat) :=
  entry_points.foldl seed_step (files, [], [])

/-- The per-node body of the BFS `while` loop: scan the neighbour list in
order, and visit (mark, record, enqueue at `depth+1`) every one not yet in
the visited set. -/
def visit_fold (d : Nat) (st : Files × List Str × List (Str × Nat)) (ns : List Str) :
    Files × List Str × List (Str × Nat) :=
  ns.foldl
    (fun st n =>
      if n ∈ st.2.1 then st
      else (mark_visited st.1 n (Int.ofNat (d + 1)), st.2.1 ++ [n], st.2.2 ++ [(n, d + 1)]))
    st

/-- The number of discovered keys not yet visited; together with the queue
length this bounds the remaining iterations of the BFS `while` loop. -/
def unvisited_count (fs : Files) (visited : List Str) : Nat :=
  ((fs.map Prod.fst).filter (fun k => decide (k ∉ visited))).length

/-- The BFS `while queue:` loop of `walk_reachability`.  Each iteration pops
the queue front and visits its fresh neighbours.  `fuel` counts remaining
iterations; the caller supplies `unvisited_count + |queue|`, which the loop
decreases by at least one per iteration, so the `0` branch is reached only
with an empty queue (lemma `walk_loop_fuel_stable`). -/
def walk_loop : Nat → List (Str × Nat) → List Str → Files → Files × List Str
  | _, [], visited, fs => (fs, visited)
  | 0, _ :: _, visited, fs => (fs, visited)
  | fuel + 1, (current, d) :: rest, visited, fs =>
    let ns := walk_neighbors fs current
    let st := visit_fold d (fs, visited, []) ns
    walk_loop fuel (rest ++ st.2.2) st.2.1 st.1

/-- `walk_reachability(files, entry_points)`: seed the entries, run the BFS,
and return the updated files together with `len(visited)` (the function's
return value). -/
def walk_reachability (files : Files) (entry_points : List Str) : Files × Nat :=
  let s := seed_entries files entry_points
  let r := walk_loop (unvisited_count s.1 s.2.1 + s.2.2.length) s.2.2 s.2.1 s.1
  (r.1, r.2.length)

/-- Python `min(l, key=len)`: the first element of minimal length. -/
def pyMinLen (l : List Str) : Str :=
  match l with
  | [] => []
  | x :: xs => xs.foldl (fun m y => if y.length < m.length then y else m) x

/-- The `MAIN_CANDIDATES` loop of `find_entry_point`. -/
def candidates_entry (fileKeys : List Str) : List Str → Option Str
  | [] => none
  | c :: cs =>
    match fileKeys.filter (fun r => pyName r == c) with
    | [] => candidates_entry fileKeys cs
    | [m] => some m
    | ms => some (pyMinLen ms)

/-- `find_entry_point(files, hint)`: try the hint (exact key, then basename
matches — unique, else shortest), falling through to the conventional
`main.cpp` candidate names when the hint yields nothing. -/
def find_entry_point (fileKeys : List Str) (hint : Option Str) : Option Str :=
  let viaHint : Option Str :=
    match hint with
    | none => none
    | some h =>
      let hn := h.map (fun c => if c = '\\' then '/' else c)
      if hn ∈ fileKeys then some hn
      else
        match fileKeys.filter (fun r => pyName r == pyName hn) with
        | [] => none
        | [m] => some m
        | ms => some (pyMinLen ms)
  match viaHint with
  | some r => some r
  | none => candidates_entry fileKeys MAIN_CANDIDATES

/-- The observable outcome of one `main()` run of dead_file_finder.py:
whether `sys.exit` fired (and its code), whether Phase 3 (graph build) was
reached, and the broken-include and reachable counts it reported. -/
structure MainOutcome where
  exit_code : Option Nat
  graph_built : Bool
  broken_count : Nat
  reached_count : Nat
deriving DecidableEq, Repr

/-- The phase sequencing of `main()` after argument parsing and root
validation, as a function of the discovered artifacts (with their extracted
raw includes), the `--entry` hint and the `--extra-entry` list:
Phase 1 result empty → `sys.exit(1)`; Phase 2 resolves entry points and
`sys.exit(1)` when none resolve — before Phase 3 ever builds the graph;
otherwise Phase 3 builds the graph and Phase 4 walks reachability. -/
def main_phases (discovered : List (Str × List (Str × Nat)))
    (entry_hint : Option Str) (extra_entries : List Str) : MainOutcome :=
  if discovered.isEmpty then ⟨some 1, false, 0, 0⟩
  else
    let keys := discovered.map Prod.fst
    let entry_points :=
      (find_entry_point keys entry_hint).toList
      ++ extra_entries.filterMap (fun e => find_entry_point keys (some e))
    if entry_points.isEmpty then ⟨some 1, false, 0, 0⟩
    else
      let g := build_dependency_graph discovered
      let files : Files := g.1.map (fun p => (p.1, { resolved_deps := p.2 }))
      let w := walk_reachability files entry_points
      ⟨none, true, g.2.length, w.2⟩

end DeadFileFinder

namespace CheckCircular

/-- Python `line.strip()` (whitespace from both ends). -/
def pyStrip (s : Str) : Str :=
  ((s.dropWhile pySpace).reverse.dropWhile pySpace).reverse

/-- Python `sub in s` (substring containment). -/
def hasSub (sub : Str) : Str → Bool
  | [] => sub.isPrefixOf []
  | c :: t => if sub.isPrefixOf (c :: t) then true else hasSub sub t

/-- The capture group `([^>"]+)` of the check_circular include pattern: scan
up to the first `>` or `"` (the closing class `[>"]` accepts either). -/
def cc_take_capture : Str → Option Str
  | [] => none
  | c :: cs =>
    if c = '>' || c = '"' then some []
    else (cc_take_capture cs).map (c :: ·)

/-- `re.match(r'#include\s+[<"]([^>"]+)[>"]', stripped)` — anchored at the
start of the stripped line, and matching quoted AND angle-bracket includes. -/
def cc_match_include (s : Str) : Option Str :=
  match DeadFileFinder.dropLit "#include".data s with
  | none => none
  | some r1 =>
    match r1 with
    | [] => none
    | c :: r2 =>
      if pySpace c then
        match r2.dropWhile pySpace with
        | b :: r3 =>
          if b = '<' || b = '"' then
            match cc_take_capture r3 with
            | some cap => if cap = [] then none else some cap
            | none => none
          else none
        | [] => none
      else none

/-- One line of `CircularIncludeChecker.extract_includes`: update the block
comment state, skip comment lines, and otherwise match the anchored include
pattern on the stripped line. -/
def extract_step (b : Bool) (line : Str) : Bool × Option Str :=
  let stripped := pyStrip line
  let b1 := if hasSub "/*".data stripped then true else b
  if hasSub "*/".data stripped then (false, none)
  else if b1 then (b1, none)
  else if "//".data.isPrefixOf stripped then (b1, none)
  else (b1, cc_match_include stripped)

/-- `CircularIncludeChecker.extract_includes` over the lines of a file. -/
def extract_includes (lines : List Str) : List Str :=
  (lines.foldl
    (fun st line =>
      let r := extract_step st.1 line
      (r.1, st.2 ++ r.2.toList))
    (false, [])).2

/-- `a.lstrip('../')` then `.lstrip('./')`: `str.lstrip` strips any leading
character drawn from the given set, so together these strip every leading
`.` or `/` character. -/
def lstripDotSlash (s : Str) : Str :=
  s.dropWhile (fun c => c = '.' || c = '/')

/-- `CircularIncludeChecker.resolve_include_path`.  The checker's `file_map`
is an association list (basename and relative-path keys, insertion order);
`fs_resolve` models `Path.resolve()` (filesystem path canonicalisation) and
`fs_exists` models `Path.exists()`, both external to the map.  Heuristic
order as in the source: basename map hit FIRST, then existence relative to
the including file's directory, then relative to the project root, then the
char-stripped literal in the map, then the first map value with matching
basename. -/
def resolve_include_path (file_map : List (Str × Str)) (root : Str)
    (fs_resolve : Str → Str) (fs_exists : Str → Bool)
    (include_path from_file : Str) : Option Str :=
  match file_map.lookup (pyName include_path) with
  | some p => some p
  | none =>
    let rtf := fs_resolve (pyParent from_file ++ '/' :: include_path)
    if fs_exists rtf then some rtf
    else
      let rtr := fs_resolve (root ++ '/' :: include_path)
      if fs_exists rtr then some rtr
      else
        match file_map.lookup (lstripDotSlash include_path) with
        | some p => some p
        | none =>
          match file_map.find? (fun kv => pyName kv.2 == pyName include_path) with
          | some kv => some kv.2
          | none => none

/-- `self.include_graph.get(start, [])`: the adjacency of the cycle
checker's graph (nodes with no outgoing edges are not keys). -/
def adj (g : List (Str × List Str)) (s : Str) : List Str :=
  (g.lookup s).getD []

/-- Every node name occurring in the graph: the keys plus every adjacency
target. -/
def graph_nodes (g : List (Str × List Str)) : List Str :=
  g.map Prod.fst ++ (g.map Prod.snd).flatten

/-- `CircularIncludeChecker.find_cycles_from_node`: DFS that, on
re-encountering a visited node, closes the path from that node's first
occurrence into a raw cycle; otherwise it recurses into each neighbour with
the node added to (a copy of) the visited set and path.  `fuel` counts the
remaining recursion depth; callers supply the number of graph nodes, which
bounds the recursion because every recursing call enlarges the visited set
by one graph node (theorem `find_cycles_aux_fuel_stable`). -/
def find_cycles_aux (g : List (Str × List Str)) (fuel : Nat) (start : Str)
    (visited path : List Str) : List (List Str) :=
  if start ∈ visited then
    if start ∈ path then [path.drop (path.indexOf start) ++ [start]] else []
  else
    match fuel with
    | 0 => []
    | fuel' + 1 =>
      (adj g start).flatMap
        (fun nb => find_cycles_aux g fuel' nb (start :: visited) (path ++ [start]))

/-- `find_cycles_from_node(node, set(), [])` as called by `find_all_cycles`. -/
def find_cycles_from_node (g : List (Str × List Str)) (start : Str) : List (List Str) :=
  find_cycles_aux g (graph_nodes g).length start [] []

/-- Python `min(cycle, key=lambda p: str(p))`: the first path-wise minimal
element. -/
def pyMin : List Str → Str
  | [] => []
  | x :: xs => xs.foldl (fun m y => if y < m then y else m) x

/-- The canonicalisation step of `find_all_cycles`: rotate the closed raw
cycle `[v0, ..., vk, v0]` to start at its path-wise minimal member and drop
the duplicated closing element (`cycle[min_idx:-1] + cycle[:min_idx]`). -/
def canonicalize (cycle : List Str) : List Str :=
  match cycle with
  | [] => []
  | _ :: _ =>
    let i := cycle.indexOf (pyMin cycle)
    ((cycle.drop i).dropLast) ++ cycle.take i

/-- The per-raw-cycle body of `find_all_cycles`: skip empty cycles,
canonicalise, and keep the canonical form only when it was not seen before
(`checked_cycles` set, here the first component). -/
def dedup_step (st : List (List Str) × List (List Str)) (cycle : List Str) :
    List (List Str) × List (List Str) :=
  if cycle.isEmpty then st
  else
    let normalized := canonicalize cycle
    if normalized ∈ st.1 then st
    else (normalized :: st.1, st.2 ++ [normalized])

/-- `CircularIncludeChecker.find_all_cycles`: DFS from every graph key, then
canonicalise and deduplicate the raw cycles. -/
def find_all_cycles (g : List (Str × List Str)) : List (List Str) :=
  ((g.map Prod.fst).foldl
    (fun st node => (find_cycles_from_node g node).foldl dedup_step st)
    ([], [])).2

end CheckCircular

open DeadFileFinder CheckCircular

/-- Fixture: the scenario of spec §8.3 — `main.cpp` includes `lib/Widget.h`;
`lib/Widget.cpp` exists but is included by nothing. -/
def widgetFiles : Files :=
  [("main.cpp".data, { resolved_deps := ["lib/Widget.h".data] }),
   ("lib/Widget.h".data, {}),
   ("lib/Widget.cpp".data, {})]

/-- Fixture: a checker `file_map` in which basename `Bar.h` was claimed by
`b/Bar.h` during the scan although `a/Bar.h` also exists. -/
def ccFileMap : List (Str × Str) :=
  [("a/Foo.h".data, "a/Foo.h".data), ("Foo.h".data, "a/Foo.h".data),
   ("b/Bar.h".data, "b/Bar.h".data), ("Bar.h".data, "b/Bar.h".data),
   ("a/Bar.h".data, "a/Bar.h".data)]

/-- Fixture: the filesystem for `ccFileMap` — exactly the three scanned
files exist. -/
def ccExists (s : Str) : Bool :=
  s == "a/Foo.h".data || s == "a/Bar.h".data || s == "b/Bar.h".data

/-- `cap` is the capture group of a quoted include directive occurring in
the line `cs`: somewhere in the line, a `#`, optional whitespace, the word
`include`, mandatory whitespace, and then the non-empty capture delimited on
both sides by double quotes. -/
def QuotedIncludeAt (cs cap : Str) : Prop :=
  ∃ pre s1 s2 rest,
    cs = pre ++ '#' :: (s1 ++ "include".data ++ s2 ++ '"' :: (cap ++ '"' :: rest))
    ∧ (∀ c ∈ s1, pySpace c) ∧ (∀ c ∈ s2, pySpace c)
    ∧ s2 ≠ [] ∧ cap ≠ [] ∧ '"' ∉ cap

/-- Close a cycle's member sequence into the raw closed walk the DFS
reports: `[v0, ..., vk, v0]`. -/
def close_cycle (l : List Str) : List Str :=
  l ++ l.take 1

/-- `ReachN files entries n x`: there is a walk of exactly `n` BFS steps
from some entry point (present in the files dict) to `x`, each step a
forward resolved-include edge or a sibling-pairing edge — precisely the
neighbour relation `walk_neighbors` the BFS follows. -/
inductive ReachN (files : Files) (entries : List Str) : Nat → Str → Prop
  | entry (e : Str) : e ∈ entries → isKey files e = true → ReachN files entries 0 e
  | step {n : Nat} {a b : Str} : ReachN files entries n a →
      b ∈ walk_neighbors files a → ReachN files entries (n + 1) b

/-- The invariant of the BFS `while` loop of `walk_reachability`, relating
the loop state (queue, visited set, mutated files dict) to the immutable
input `files` and `entry_points`. -/
structure WalkInv (files : Files) (entries : List Str) (queue : List (Str × Nat))
    (visited : List Str) (fs : Files) : Prop where
  deps_eq : ∀ k, (fs.lookup k).map FileNode.resolved_deps
      = (files.lookup k).map FileNode.resolved_deps
  keys_eq : ∀ k, (fs.lookup k).isSome = (files.lookup k).isSome
  vis_spec : ∀ x ∈ visited, isKey files x = true ∧ reachOf fs x = true
      ∧ 0 ≤ depthOf fs x ∧ ReachN files entries (depthOf fs x).toNat x
  untouched : ∀ x, x ∉ visited → fs.lookup x = files.lookup x
  queue_vis : ∀ qe ∈ queue, qe.1 ∈ visited ∧ depthOf fs qe.1 = Int.ofNat qe.2
  shape : ∃ D a b, queue.map Prod.snd
      = List.replicate a D ++ List.replicate b (D + 1)
      ∧ ∀ x ∈ visited, depthOf fs x ≤ Int.ofNat D + 1
  closures : ∀ x ∈ visited, (∀ d, (x, d) ∉ queue) →
      ∀ b ∈ walk_neighbors files x, b ∈ visited ∧ depthOf fs b ≤ depthOf fs x + 1
  entries_vis : ∀ e ∈ entries, isKey files e = true → e ∈ visited ∧ depthOf fs e = 0

/-- The invariant of the entry-seeding loop of `walk_reachability`. -/
structure SeedInv (files : Files) (entries : List Str) (fs : Files)
    (vis : List Str) (q : List (Str × Nat)) : Prop where
  deps_eq : ∀ k, (fs.lookup k).map FileNode.resolved_deps
      = (files.lookup k).map FileNode.resolved_deps
  keys_eq : ∀ k, (fs.lookup k).isSome = (files.lookup k).isSome
  vis_spec : ∀ x ∈ vis, x ∈ entries ∧ isKey files x = true
      ∧ reachOf fs x = true ∧ depthOf fs x = 0
  untouched : ∀ x, x ∉ vis → fs.lookup x = files.lookup x
  queue_spec : ∀ qe ∈ q, qe.1 ∈ vis ∧ qe.2 = 0
  vis_q : ∀ x ∈ vis, ∃ d, (x, d) ∈ q

/-- C4 (counterexample). The literal `Bar.h` included from `a/Foo.h` matches
both via the relative-to-includer's-directory rule (`a/Bar.h` exists) and via
a basename-only candidate, yet `CircularIncludeChecker.resolve_include_path`
— one of the two resolvers the claim covers — returns the basename-map entry
`b/Bar.h`, not the relative-rule result `a/Bar.h`. -/
theorem resolve_include_path_basename_first_cex :
    resolve_include_path ccFileMap ['.'] normPath ccExists "Bar.h".data "a/Foo.h".data
      = some "b/Bar.h".data
    ∧ normPath (pyParent "a/Foo.h".data ++ '/' :: "Bar.h".data) = "a/Bar.h".data
    ∧ ccExists "a/Bar.h".data = true
    ∧ "b/Bar.h".data ≠ "a/Bar.h".data := by
  refine ⟨by decide, by decide, by decide, by decide⟩

/-- C4 (amended). `dead_file_finder.resolve_include` applies its heuristics
in strict order stopping at the first hit: whenever the candidate formed by
the relative-to-includer's-directory rule is a discovered key, resolution
returns exactly that candidate — in particular a literal that also matches a
basename-only candidate still resolves via the relative rule. -/
theorem resolve_include_relative_rule_first (raw includer_rel : Str)
    (fileKeys : List Str) (h : relative_candidate raw includer_rel ∈ fileKeys) :
    resolve_include raw includer_rel fileKeys
      = some (relative_candidate raw includer_rel) := by
  unfold resolve_include
  exact if_pos h

/-- C4 (witness): the relative rule wins at a concrete input where a
basename-only candidate also matches. -/
theorem resolve_include_relative_rule_first_witness :
    resolve_include "Bar.h".data "a/Foo.h".data
        ["a/Foo.h".data, "a/Bar.h".data, "b/Bar.h".data]
      = some (relative_candidate "Bar.h".data "a/Foo.h".data) :=
  resolve_include_relative_rule_first "Bar.h".data "a/Foo.h".data
    ["a/Foo.h".data, "a/Bar.h".data, "b/Bar.h".data] (by decide)

/-- C2 (counterexample). With one discovered artifact, no hint and no extra
entries, no entry point resolves and `main()` exits with code 1 before Phase
3: the dependency graph is never built (and cycle detection, which lives in
the separate check_circular tool, is not part of this run at all), contrary
to the claim that graph construction and cycle detection still run. -/
theorem main_phases_no_entry_cex :
    main_phases [("lib/A.h".data, [])] none []
      = { exit_code := some 1, graph_built := false,
          broken_count := 0, reached_count := 0 } := by
  decide

/-- C2 (amended). When at least one artifact is discovered but zero entry
points are resolvable (by hint or by conventional name), `main()` aborts the
entire run with `sys.exit(1)` right after Phase 2: the dependency graph is
not built and no reachability or broken-include counts are produced.
Discovery results remain valid; cycle detection belongs to the separate
check_circular tool, which needs no entry points. -/
theorem main_phases_no_entry_aborts (discovered : List (Str × List (Str × Nat)))
    (entry_hint : Option Str) (extra_entries : List Str)
    (hne : discovered ≠ [])
    (hent : (find_entry_point (discovered.map Prod.fst) entry_hint).toList
        ++ extra_entries.filterMap
            (fun e => find_entry_point (discovered.map Prod.fst) (some e)) = []) :
    main_phases discovered entry_hint extra_entries
      = { exit_code := some 1, graph_built := false,
          broken_count := 0, reached_count := 0 } := by
  unfold main_phases
  rw [if_neg (by simp [List.isEmpty_iff, hne]), if_pos (by simp [List.isEmpty_iff, hent])]

/-- C2 (witness): the amended abort behaviour at a concrete input. -/
theorem main_phases_no_entry_aborts_witness :
    main_phases [("lib/A.h".data, []), ("lib/A.cpp".data, [])] none []
      = { exit_code := some 1, graph_built := false,
          broken_count := 0, reached_count := 0 } :=
  main_phases_no_entry_aborts [("lib/A.h".data, []), ("lib/A.cpp".data, [])] none []
    (by decide) (by decide)

/-- C8 (counterexample). `CircularIncludeChecker.extract_includes` — one of
the two extractors the claim covers — produces a raw include for an
angle-bracket directive: its pattern `#include\s+[<"]([^>"]+)[>"]` matches
`#include <vector>`. -/
theorem extract_includes_angle_cex :
    extract_includes ["#include <vector>".data] = ["vector".data] := by
  decide

theorem dropLit_sound (lit : Str) : ∀ s r, dropLit lit s = some r → s = lit ++ r := by
  induction lit with
  | nil =>
    intro s r h
    simp only [dropLit, Option.some.injEq] at h
    simp [h]
  | cons c cs ih =>
    intro s r h
    match s with
    | [] => simp [dropLit] at h
    | d :: ds =>
      simp only [dropLit] at h
      by_cases hcd : c = d
      · rw [if_pos hcd] at h
        have := ih ds r h
        simp [this, hcd]
      · rw [if_neg hcd] at h
        cases h

theorem take_until_quote_sound :
    ∀ s cap, take_until_quote s = some cap →
      ∃ rest, s = cap ++ '"' :: rest ∧ '"' ∉ cap := by
  intro s
  induction s with
  | nil => intro cap h; simp [take_until_quote] at h
  | cons c cs ih =>
    intro cap h
    simp only [take_until_quote] at h
    by_cases hc : c = '"'
    · rw [if_pos hc] at h
      simp only [Option.some.injEq] at h
      subst h
      exact ⟨cs, by simp [hc], by simp⟩
    · rw [if_neg hc] at h
      match hcs : take_until_quote cs with
      | none => rw [hcs] at h; cases h
      | some cap' =>
        rw [hcs] at h
        simp only [Option.map_some', Option.some.injEq] at h
        obtain ⟨rest, hrest, hnotin⟩ := ih cap' hcs
        subst h
        exact ⟨rest, by simp [hrest], by simp [hnotin, Ne.symm hc]⟩

theorem match_include_at_sound (cs cap : Str)
    (h : match_include_at cs = some cap) : QuotedIncludeAt cs cap := by
  match cs with
  | [] => simp [match_include_at] at h
  | c0 :: rest =>
    simp only [match_include_at] at h
    by_cases h0 : c0 = '#'
    · rw [if_pos h0] at h
      match hdl : dropLit "include".data (rest.dropWhile pySpace) with
      | none => rw [hdl] at h; cases h
      | some r2 =>
        rw [hdl] at h
        dsimp only at h
        match r2 with
        | [] => cases h
        | c :: r3 =>
          dsimp only at h
          by_cases hc : pySpace c
          · rw [if_pos hc] at h
            match hdw : r3.dropWhile pySpace with
            | [] => rw [hdw] at h; cases h
            | b :: r4 =>
              rw [hdw] at h
              dsimp only at h
              by_cases hb : b = '"'
              · rw [if_pos hb] at h
                match htq : take_until_quote r4 with
                | none => rw [htq] at h; cases h
                | some cap' =>
                  rw [htq] at h
                  dsimp only at h
                  by_cases hcap : cap' = []
                  · rw [if_pos hcap] at h; cases h
                  · rw [if_neg hcap] at h
                    simp only [Option.some.injEq] at h
                    rw [← h]
                    obtain ⟨tail, htail, hnq⟩ := take_until_quote_sound r4 cap' htq
                    refine ⟨[], rest.takeWhile pySpace,
                            c :: r3.takeWhile pySpace, tail, ?_, ?_, ?_, ?_, hcap, hnq⟩
                    · have h3 : r3 = List.takeWhile pySpace r3
                          ++ '"' :: (cap' ++ '"' :: tail) := by
                        conv_lhs => rw [← List.takeWhile_append_dropWhile pySpace r3]
                        rw [hdw, hb, htail]
                      have hrest : rest = List.takeWhile pySpace rest
                          ++ ("include".data ++ (c :: (List.takeWhile pySpace r3
                            ++ '"' :: (cap' ++ '"' :: tail)))) := by
                        conv_lhs => rw [← List.takeWhile_append_dropWhile pySpace rest]
                        rw [dropLit_sound _ _ _ hdl, ← h3]
                      subst h0
                      simp only [List.nil_append, List.cons.injEq, true_and]
                      conv_lhs => rw [hrest]
                      simp [List.append_assoc]
                    · intro x hx; exact List.mem_takeWhile_imp hx
                    · intro x hx
                      rw [List.mem_cons] at hx
                      rcases hx with rfl | hx
                      · exact hc
                      · exact List.mem_takeWhile_imp hx
                    · simp
              · rw [if_neg hb] at h; cases h
          · rw [if_neg hc] at h; cases h
    · rw [if_neg h0] at h; cases h

theorem quoted_include_at_cons (c : Char) (cs cap : Str)
    (h : QuotedIncludeAt cs cap) : QuotedIncludeAt (c :: cs) cap := by
  obtain ⟨pre, s1, s2, rest, heq, h1, h2, h3, h4, h5⟩ := h
  exact ⟨c :: pre, s1, s2, rest, by simp [heq], h1, h2, h3, h4, h5⟩

/-- C8 (amended). `dead_file_finder`'s include extractor yields only quoted
include directives: every literal that `INCLUDE_PATTERN.search` extracts
from a line is delimited by double quotes after `#include` in that line —
so an angle-bracket directive on its own never produces a raw include there.
(`check_circular.extract_includes`, by contrast, also matches angle-bracket
directives; see the counterexample.) -/
theorem search_include_only_quoted (line cap : Str)
    (h : search_include line = some cap) : QuotedIncludeAt line cap := by
  induction line with
  | nil => simp [search_include] at h
  | cons c cs ih =>
    simp only [search_include] at h
    match hm : match_include_at (c :: cs) with
    | some cap' =>
      rw [hm] at h
      simp only [Option.some.injEq] at h
      subst h
      exact match_include_at_sound _ _ hm
    | none =>
      rw [hm] at h
      exact quoted_include_at_cons c cs cap (ih h)

/-- C8 (witness): the soundness theorem applied at a concrete quoted
directive. -/
theorem search_include_only_quoted_witness :
    QuotedIncludeAt "x; #include \"lib/A.h\"".data "lib/A.h".data :=
  search_include_only_quoted "x; #include \"lib/A.h\"".data "lib/A.h".data (by decide)

theorem length_filter_mono {α : Type} {p q : α → Bool} (l : List α)
    (h : ∀ a, p a → q a) : (l.filter p).length ≤ (l.filter q).length :=
  (List.monotone_filter_right l h).length_le

theorem unvis_filter_step (keys : List Str) (n : Str) (vis vis' : List Str)
    (hn : n ∈ keys) (hnv : n ∉ vis) (hiff : ∀ x, x ∈ vis' ↔ x = n ∨ x ∈ vis) :
    (keys.filter (fun k => decide (k ∉ vis'))).length + 1
      ≤ (keys.filter (fun k => decide (k ∉ vis))).length := by
  induction keys with
  | nil => cases hn
  | cons k t ih =>
    have hmono : ∀ a : Str, (fun k => decide (k ∉ vis')) a → (fun k => decide (k ∉ vis)) a := by
      intro a ha
      simp only [decide_eq_true_eq] at ha ⊢
      intro hav
      exact ha ((hiff a).mpr (Or.inr hav))
    by_cases hkn : k = n
    · subst hkn
      have h1 : (fun k => decide (k ∉ vis')) k = false := by
        simp [decide_eq_false_iff_not, (hiff k).mpr (Or.inl rfl)]
      have h2 : (fun k => decide (k ∉ vis)) k = true := by simp [hnv]
      rw [List.filter_cons_of_neg (by simp [h1]), List.filter_cons_of_pos (by simp [h2])]
      simpa [Nat.succ_le_succ_iff] using length_filter_mono t hmono
    · have hnt : n ∈ t := by
        rcases List.mem_cons.mp hn with h | h
        · exact absurd h.symm hkn
        · exact h
      have hmem : (k ∈ vis') ↔ (k ∈ vis) := by
        rw [hiff k]
        constructor
        · rintro (rfl | h)
          · exact absurd rfl hkn
          · exact h
        · exact Or.inr
      by_cases hkv : k ∈ vis
      · rw [List.filter_cons_of_neg (by simp [hmem.mpr hkv]),
            List.filter_cons_of_neg (by simp [hkv])]
        exact ih hnt
      · rw [List.filter_cons_of_pos (by simp; exact fun h => hkv (hmem.mp h)),
            List.filter_cons_of_pos (by simp [hkv])]
        simpa [Nat.succ_le_succ_iff] using ih hnt

theorem lookup_some_mem_keys {β : Type} (g : List (Str × β)) (k : Str) (v : β)
    (h : g.lookup k = some v) : k ∈ g.map Prod.fst := by
  induction g with
  | nil => cases h
  | cons p t ih =>
    obtain ⟨a, b⟩ := p
    by_cases hk : k = a
    · exact show k ∈ a :: t.map Prod.fst from List.mem_cons.mpr (Or.inl hk)
    · rw [List.lookup_cons, show (k == a) = false from beq_false_of_ne hk] at h
      exact show k ∈ a :: t.map Prod.fst from List.mem_cons.mpr (Or.inr (ih h))

theorem adj_ne_nil_mem_nodes (g : List (Str × List Str)) (s : Str)
    (h : adj g s ≠ []) : s ∈ graph_nodes g := by
  unfold adj at h
  match hl : g.lookup s with
  | none => rw [hl] at h; simp at h
  | some l =>
    unfold graph_nodes
    exact List.mem_append_left _ (lookup_some_mem_keys g s l hl)

/-- C10. The cycle-enumeration DFS terminates on every finite include graph:
each call either stops on re-encountering a node already in its visited set,
or recurses with the visited set strictly enlarged by the current node —
a graph node — so every recursion chain performs at most as many nested
calls as there are unvisited graph nodes.  Formally, the recursion-depth
budget is irrelevant as soon as it reaches the number of unvisited graph
nodes: any two sufficient budgets compute the same result. -/
theorem find_cycles_aux_fuel_stable (g : List (Str × List Str)) :
    ∀ fuel fuel' start visited path,
      ((graph_nodes g).filter (fun x => decide (x ∉ visited))).length ≤ fuel →
      ((graph_nodes g).filter (fun x => decide (x ∉ visited))).length ≤ fuel' →
      find_cycles_aux g fuel start visited path
        = find_cycles_aux g fuel' start visited path := by
  intro fuel
  induction fuel with
  | zero =>
    intro fuel' start visited path h h'
    by_cases hv : start ∈ visited
    · cases fuel' <;> simp [find_cycles_aux, hv]
    · have hadj : adj g start = [] := by
        by_contra hne
        have hmem : start ∈ (graph_nodes g).filter (fun x => decide (x ∉ visited)) :=
          List.mem_filter.mpr ⟨adj_ne_nil_mem_nodes g start hne, by simpa using hv⟩
        have h0 : ((graph_nodes g).filter (fun x => decide (x ∉ visited))).length = 0 :=
          Nat.le_zero.mp h
        rw [List.length_eq_zero.mp h0] at hmem
        cases hmem
      cases fuel' with
      | zero => rfl
      | succ f' => simp [find_cycles_aux, hv, hadj]
  | succ f ih =>
    intro fuel' start visited path h h'
    by_cases hv : start ∈ visited
    · cases fuel' <;> simp [find_cycles_aux, hv]
    · cases fuel' with
      | zero =>
        have hadj : adj g start = [] := by
          by_contra hne
          have hmem : start ∈ (graph_nodes g).filter (fun x => decide (x ∉ visited)) :=
            List.mem_filter.mpr ⟨adj_ne_nil_mem_nodes g start hne, by simpa using hv⟩
          have h0 : ((graph_nodes g).filter (fun x => decide (x ∉ visited))).length = 0 :=
            Nat.le_zero.mp h'
          rw [List.length_eq_zero.mp h0] at hmem
          cases hmem
        simp [find_cycles_aux, hv, hadj]
      | succ f' =>
        simp only [find_cycles_aux, hv, if_neg (by simpa using hv)]
        by_cases hadj : adj g start = []
        · simp [hadj]
        · have hsk : start ∈ graph_nodes g := adj_ne_nil_mem_nodes g start hadj
          have hdec := unvis_filter_step (graph_nodes g) start visited (start :: visited)
            hsk hv (fun x => by simp [List.mem_cons])
          have hf : ((graph_nodes g).filter
              (fun x => decide (x ∉ start :: visited))).length ≤ f :=
            Nat.lt_succ_iff.mp (Nat.lt_of_lt_of_le (Nat.lt_of_succ_le hdec) h)
          have hf' : ((graph_nodes g).filter
              (fun x => decide (x ∉ start :: visited))).length ≤ f' :=
            Nat.lt_succ_iff.mp (Nat.lt_of_lt_of_le (Nat.lt_of_succ_le hdec) h')
          have hfun : (fun nb => find_cycles_aux g f nb (start :: visited) (path ++ [start]))
              = (fun nb => find_cycles_aux g f' nb (start :: visited) (path ++ [start])) :=
            funext (fun nb => ih f' nb (start :: visited) (path ++ [start]) hf hf')
          rw [hfun]

/-- C10 (witness): the fuel-stability theorem at a concrete graph and state. -/
theorem find_cycles_aux_fuel_stable_witness :
    find_cycles_aux [("a".data, ["b".data]), ("b".data, ["a".data])] 4
        "a".data [] []
      = find_cycles_aux [("a".data, ["b".data]), ("b".data, ["a".data])] 7
        "a".data [] [] :=
  find_cycles_aux_fuel_stable [("a".data, ["b".data]), ("b".data, ["a".data])]
    4 7 "a".data [] [] (by decide) (by decide)

theorem pyMin_fold_mem (x : Str) (xs : List Str) :
    xs.foldl (fun m y => if y < m then y else m) x ∈ x :: xs := by
  induction xs generalizing x with
  | nil => simp
  | cons y ys ih =>
    simp only [List.foldl_cons]
    have ih' := ih (if y < x then y else x)
    rw [List.mem_cons] at ih'
    rcases ih' with h | h
    · rw [h]
      by_cases hxy : y < x
      · simp [hxy]
      · simp [hxy]
    · simp [h]

theorem pyMin_fold_le (x : Str) (xs : List Str) :
    xs.foldl (fun m y => if y < m then y else m) x ≤ x
    ∧ ∀ y ∈ xs, xs.foldl (fun m y => if y < m then y else m) x ≤ y := by
  induction xs generalizing x with
  | nil => exact ⟨le_refl x, by simp⟩
  | cons y ys ih =>
    simp only [List.foldl_cons]
    obtain ⟨h1, h2⟩ := ih (if y < x then y else x)
    have hx : (if y < x then y else x) ≤ x := by
      by_cases hxy : y < x
      · rw [if_pos hxy]; exact le_of_lt hxy
      · rw [if_neg hxy]
    have hy : (if y < x then y else x) ≤ y := by
      by_cases hxy : y < x
      · rw [if_pos hxy]
      · rw [if_neg hxy]; exact le_of_not_lt hxy
    refine ⟨le_trans h1 hx, ?_⟩
    intro z hz
    rw [List.mem_cons] at hz
    rcases hz with rfl | hz
    · exact le_trans h1 hy
    · exact h2 z hz

theorem pyMin_mem (l : List Str) (h : l ≠ []) : pyMin l ∈ l := by
  obtain ⟨x, xs, rfl⟩ := List.exists_cons_of_ne_nil h
  exact pyMin_fold_mem x xs

theorem pyMin_le (l : List Str) (x : Str) (hx : x ∈ l) : pyMin l ≤ x := by
  match l with
  | a :: t =>
    rw [List.mem_cons] at hx
    rcases hx with rfl | hx
    · exact (pyMin_fold_le x t).1
    · exact (pyMin_fold_le a t).2 x hx

theorem pyMin_congr (l₁ l₂ : List Str) (h1 : l₁ ≠ []) (h2 : l₂ ≠ [])
    (hiff : ∀ x, x ∈ l₁ ↔ x ∈ l₂) : pyMin l₁ = pyMin l₂ :=
  le_antisymm (pyMin_le l₁ _ ((hiff _).mpr (pyMin_mem l₂ h2)))
    (pyMin_le l₂ _ ((hiff _).mp (pyMin_mem l₁ h1)))

theorem indexOf_append_left (a : Str) (l t : List Str) (h : a ∈ l) :
    (l ++ t).indexOf a = l.indexOf a := by
  induction l with
  | nil => cases h
  | cons b bs ih =>
    by_cases hb : b = a
    · rw [List.cons_append, List.indexOf_cons, List.indexOf_cons,
          show (b == a) = true from beq_iff_eq.mpr hb]
      rfl
    · rw [List.mem_cons] at h
      rcases h with rfl | h
      · exact absurd rfl hb
      · rw [List.cons_append, List.indexOf_cons, List.indexOf_cons,
            show (b == a) = false from beq_false_of_ne hb]
        simp [ih h]

theorem indexOf_lt_len (a : Str) (l : List Str) (h : a ∈ l) :
    l.indexOf a < l.length := by
  induction l with
  | nil => cases h
  | cons b bs ih =>
    rw [List.indexOf_cons]
    by_cases hb : b = a
    · rw [show (b == a) = true from beq_iff_eq.mpr hb]
      simp
    · rw [show (b == a) = false from beq_false_of_ne hb]
      rw [List.mem_cons] at h
      rcases h with rfl | h
      · exact absurd rfl hb
      · simpa [Nat.succ_lt_succ_iff] using ih h

theorem getElem?_indexOf_self (a : Str) (l : List Str) (h : a ∈ l) :
    l[l.indexOf a]? = some a := by
  induction l with
  | nil => cases h
  | cons b bs ih =>
    by_cases hb : b = a
    · have h0 : (b :: bs).indexOf a = 0 := by
        rw [List.indexOf_cons, show (b == a) = true from beq_iff_eq.mpr hb]
        rfl
      rw [h0]
      simpa using hb
    · rw [List.mem_cons] at h
      rcases h with rfl | h
      · exact absurd rfl hb
      · have h0 : (b :: bs).indexOf a = bs.indexOf a + 1 := by
          rw [List.indexOf_cons, show (b == a) = false from beq_false_of_ne hb]
          rfl
        rw [h0, List.getElem?_cons_succ]
        exact ih h

theorem mem_close_cycle (l : List Str) (x : Str) : x ∈ close_cycle l ↔ x ∈ l := by
  unfold close_cycle
  rw [List.mem_append]
  constructor
  · rintro (h | h)
    · exact h
    · exact List.take_subset 1 l h
  · exact Or.inl

theorem close_cycle_ne_nil (l : List Str) (h : l ≠ []) : close_cycle l ≠ [] := by
  unfold close_cycle
  simp [h]

theorem canonicalize_eq (cycle : List Str) (h : cycle ≠ []) :
    canonicalize cycle
      = ((cycle.drop (cycle.indexOf (pyMin cycle))).dropLast)
        ++ cycle.take (cycle.indexOf (pyMin cycle)) := by
  obtain ⟨x, xs, rfl⟩ := List.exists_cons_of_ne_nil h
  rfl

theorem canonicalize_close_eq_rotate (l : List Str) (h : l ≠ []) :
    canonicalize (close_cycle l) = l.rotate (l.indexOf (pyMin (close_cycle l))) := by
  have hne' : close_cycle l ≠ [] := close_cycle_ne_nil l h
  have hm : pyMin (close_cycle l) ∈ l := (mem_close_cycle _ _).mp (pyMin_mem _ hne')
  have hlt : l.indexOf (pyMin (close_cycle l)) < l.length := indexOf_lt_len _ _ hm
  have hidx : (close_cycle l).indexOf (pyMin (close_cycle l))
      = l.indexOf (pyMin (close_cycle l)) := indexOf_append_left _ _ _ hm
  rw [canonicalize_eq _ hne', hidx]
  have h1 : (close_cycle l).drop (l.indexOf (pyMin (close_cycle l)))
      = l.drop (l.indexOf (pyMin (close_cycle l))) ++ l.take 1 :=
    List.drop_append_of_le_length (le_of_lt hlt)
  have h2 : (close_cycle l).take (l.indexOf (pyMin (close_cycle l)))
      = l.take (l.indexOf (pyMin (close_cycle l))) :=
    List.take_append_of_le_length (le_of_lt hlt)
  rw [h1, h2, List.rotate_eq_drop_append_take (le_of_lt hlt)]
  congr 1
  obtain ⟨x, xs, rfl⟩ := List.exists_cons_of_ne_nil h
  exact List.dropLast_concat

theorem head?_rotate_mod (l : List Str) (n : Nat) (hl : l ≠ []) :
    (l.rotate n).head? = l[n % l.length]? := by
  have hlen : 0 < l.length := List.length_pos.mpr hl
  have hp : 0 < (l.rotate n).length := by rw [List.length_rotate]; exact hlen
  have hbound : (0 + n) % l.length < l.length := Nat.mod_lt _ hlen
  rw [List.head?_eq_getElem?, List.getElem?_eq_getElem hp, List.getElem_rotate,
      ← List.getElem?_eq_getElem hbound, Nat.zero_add]

theorem rotate_eq_rotate_of_getZero (l : List Str) (hnd : l.Nodup) (hne : l ≠ [])
    (p q : Nat)
    (h : (l.rotate p).head? = (l.rotate q).head?) : l.rotate p = l.rotate q := by
  have hlen : 0 < l.length := List.length_pos.mpr hne
  rw [head?_rotate_mod l p hne, head?_rotate_mod l q hne] at h
  have hinj : p % l.length = q % l.length :=
    List.getElem?_inj (Nat.mod_lt _ hlen) hnd h
  calc l.rotate p = l.rotate (p % l.length) := (List.rotate_mod l p).symm
    _ = l.rotate (q % l.length) := by rw [hinj]
    _ = l.rotate q := List.rotate_mod l q

theorem head?_rotate_indexOf (l : List Str) (m : Str) (hm : m ∈ l) :
    (l.rotate (l.indexOf m)).head? = some m := by
  have hl : l ≠ [] := by
    intro hcon
    subst hcon
    cases hm
  rw [head?_rotate_mod l _ hl, Nat.mod_eq_of_lt (indexOf_lt_len m l hm)]
  exact getElem?_indexOf_self m l hm

theorem foldl_preserve {α β : Type} (P : α → Prop) (f : α → β → α)
    (h : ∀ s b, P s → P (f s b)) : ∀ (l : List β) (s : α), P s → P (l.foldl f s) := by
  intro l
  induction l with
  | nil => intro s hs; exact hs
  | cons b t ih => intro s hs; exact ih (f s b) (h s b hs)

theorem dedup_step_preserve (st : List (List Str) × List (List Str)) (c : List Str)
    (h : st.2.Nodup ∧ ∀ x ∈ st.2, x ∈ st.1) :
    (dedup_step st c).2.Nodup ∧ ∀ x ∈ (dedup_step st c).2, x ∈ (dedup_step st c).1 := by
  unfold dedup_step
  by_cases he : c.isEmpty
  · simpa [he] using h
  · rw [if_neg (by simp [he])]
    by_cases hm : canonicalize c ∈ st.1
    · simpa [hm] using h
    · rw [if_neg hm]
      refine ⟨?_, ?_⟩
      · refine List.Nodup.append h.1 (List.nodup_singleton _) ?_
        intro x hx hy
        rw [List.mem_singleton] at hy
        subst hy
        exact hm (h.2 _ hx)
      · intro x hx
        rw [List.mem_append] at hx
        rcases hx with hx | hx
        · exact List.mem_cons.mpr (Or.inr (h.2 x hx))
        · rw [List.mem_singleton] at hx
          exact List.mem_cons.mpr (Or.inl hx)

/-- C5. Canonicalisation of cycles is rotation-invariant: for every
elementary cycle (a non-empty, duplicate-free member sequence) and every
rotation of it, canonicalising the closed form of the rotation yields the
same representative as canonicalising the closed form of the original; and
the final list produced by `find_all_cycles` never contains two equal
canonical forms. -/
theorem canonicalize_rotation_invariant :
    (∀ (l : List Str) (k : Nat), l ≠ [] → l.Nodup →
        canonicalize (close_cycle (l.rotate k)) = canonicalize (close_cycle l))
    ∧ ∀ g : List (Str × List Str), (find_all_cycles g).Nodup := by
  constructor
  · intro l k hne hnd
    have hne' : l.rotate k ≠ [] := by
      intro hx
      have := congrArg List.length hx
      rw [List.length_rotate] at this
      exact hne (List.length_eq_zero.mp this)
    have hmm : pyMin (close_cycle (l.rotate k)) = pyMin (close_cycle l) :=
      pyMin_congr _ _ (close_cycle_ne_nil _ hne') (close_cycle_ne_nil _ hne)
        (fun x => by rw [mem_close_cycle, mem_close_cycle, List.mem_rotate])
    have hml : pyMin (close_cycle l) ∈ l :=
      (mem_close_cycle _ _).mp (pyMin_mem _ (close_cycle_ne_nil _ hne))
    have hmr : pyMin (close_cycle l) ∈ l.rotate k := List.mem_rotate.mpr hml
    rw [canonicalize_close_eq_rotate _ hne', canonicalize_close_eq_rotate _ hne, hmm]
    rw [List.rotate_rotate]
    apply rotate_eq_rotate_of_getZero l hnd hne
    rw [← List.rotate_rotate]
    rw [head?_rotate_indexOf (l.rotate k) _ hmr, head?_rotate_indexOf l _ hml]
  · intro g
    have hfold : ∀ (cycles : List (List Str)) (st : List (List Str) × List (List Str)),
        (st.2.Nodup ∧ ∀ x ∈ st.2, x ∈ st.1) →
        ((cycles.foldl dedup_step st).2.Nodup
          ∧ ∀ x ∈ (cycles.foldl dedup_step st).2, x ∈ (cycles.foldl dedup_step st).1) :=
      fun cycles st h => foldl_preserve _ dedup_step dedup_step_preserve cycles st h
    have houter := foldl_preserve
      (fun st : List (List Str) × List (List Str) =>
        st.2.Nodup ∧ ∀ x ∈ st.2, x ∈ st.1)
      (fun st node => (find_cycles_from_node g node).foldl dedup_step st)
      (fun st node h => hfold (find_cycles_from_node g node) st h)
      (g.map Prod.fst) ([], []) (by simp)
    exact houter.1

/-- C5 (witness): rotation invariance at a concrete duplicate-free cycle and
the dedup guarantee at a concrete graph. -/
theorem canonicalize_rotation_invariant_witness :
    canonicalize (close_cycle ((["b".data, "a".data, "c".data] : List Str).rotate 2))
      = canonicalize (close_cycle ["b".data, "a".data, "c".data])
    ∧ (find_all_cycles [("a".data, ["a".data])]).Nodup :=
  ⟨canonicalize_rotation_invariant.1 ["b".data, "a".data, "c".data] 2
      (by decide) (by decide),
   canonicalize_rotation_invariant.2 [("a".data, ["a".data])]⟩

theorem aux_step_fresh (g : List (Str × List Str)) (fuel : Nat) (start : Str)
    (visited path : List Str) (h : start ∉ visited) :
    find_cycles_aux g (fuel + 1) start visited path
      = (adj g start).flatMap
          (fun nb => find_cycles_aux g fuel nb (start :: visited) (path ++ [start])) := by
  rw [find_cycles_aux, if_neg h]

theorem aux_step_visited (g : List (Str × List Str)) (fuel : Nat) (start : Str)
    (visited path : List Str) (h : start ∈ visited) :
    find_cycles_aux g fuel start visited path
      = if start ∈ path then [path.drop (path.indexOf start) ++ [start]] else [] := by
  cases fuel <;> (rw [find_cycles_aux, if_pos h])

theorem find_cycles_mutual_first (a b : Str) (hab : a ≠ b) :
    find_cycles_from_node [(a, [b]), (b, [a])] a = [[a, b, a]] := by
  have hba : b ≠ a := Ne.symm hab
  have hadj_a : adj [(a, [b]), (b, [a])] a = [b] := by
    simp [adj, List.lookup_cons]
  have hadj_b : adj [(a, [b]), (b, [a])] b = [a] := by
    simp [adj, List.lookup_cons, beq_false_of_ne hba]
  show find_cycles_aux [(a, [b]), (b, [a])] (3 + 1) a [] [] = [[a, b, a]]
  rw [aux_step_fresh _ _ _ _ _ (by simp), hadj_a]
  show find_cycles_aux [(a, [b]), (b, [a])] (2 + 1) b [a] [a] ++ [] = [[a, b, a]]
  rw [aux_step_fresh _ _ _ _ _ (by simp [hba]), hadj_b]
  show (find_cycles_aux [(a, [b]), (b, [a])] 2 a [b, a] ([a] ++ [b]) ++ []) ++ []
      = [[a, b, a]]
  rw [aux_step_visited _ _ _ _ _ (by simp), if_pos (by simp)]
  have hidx : ([a] ++ [b]).indexOf a = 0 := by
    rw [show ([a] ++ [b]) = a :: [b] from rfl, List.indexOf_cons, beq_self_eq_true]
    rfl
  rw [hidx]
  rfl

theorem find_cycles_mutual_second (a b : Str) (hab : a ≠ b) :
    find_cycles_from_node [(a, [b]), (b, [a])] b = [[b, a, b]] := by
  have hba : b ≠ a := Ne.symm hab
  have hadj_a : adj [(a, [b]), (b, [a])] a = [b] := by
    simp [adj, List.lookup_cons]
  have hadj_b : adj [(a, [b]), (b, [a])] b = [a] := by
    simp [adj, List.lookup_cons, beq_false_of_ne hba]
  show find_cycles_aux [(a, [b]), (b, [a])] (3 + 1) b [] [] = [[b, a, b]]
  rw [aux_step_fresh _ _ _ _ _ (by simp), hadj_b]
  show find_cycles_aux [(a, [b]), (b, [a])] (2 + 1) a [b] [b] ++ [] = [[b, a, b]]
  rw [aux_step_fresh _ _ _ _ _ (by simp [hab]), hadj_a]
  show (find_cycles_aux [(a, [b]), (b, [a])] 2 b [a, b] ([b] ++ [a]) ++ []) ++ []
      = [[b, a, b]]
  rw [aux_step_visited _ _ _ _ _ (by simp), if_pos (by simp)]
  have hidx : ([b] ++ [a]).indexOf b = 0 := by
    rw [show ([b] ++ [a]) = b :: [a] from rfl, List.indexOf_cons, beq_self_eq_true]
    rfl
  rw [hidx]
  rfl

theorem canonicalize_aba (a b : Str) (h : a < b) : canonicalize [a, b, a] = [a, b] := by
  have hmin : pyMin [a, b, a] = a := by
    show (if a < (if b < a then b else a) then a else (if b < a then b else a)) = a
    rw [if_neg (lt_asymm h), if_neg (lt_irrefl a)]
  have hidx : [a, b, a].indexOf (pyMin [a, b, a]) = 0 := by
    rw [hmin, List.indexOf_cons, beq_self_eq_true]
    rfl
  rw [canonicalize_eq _ (by simp), hidx]
  rfl

theorem canonicalize_bab (a b : Str) (h : a < b) : canonicalize [b, a, b] = [a, b] := by
  have hba : b ≠ a := Ne.symm (ne_of_lt h)
  have hmin : pyMin [b, a, b] = a := by
    show (if b < (if a < b then a else b) then b else (if a < b then a else b)) = a
    rw [if_pos h, if_neg (lt_asymm h)]
  have hidx : [b, a, b].indexOf (pyMin [b, a, b]) = 1 := by
    rw [hmin, List.indexOf_cons, show (b == a) = false from beq_false_of_ne hba]
    rw [show (cond false 0 ([a, b].indexOf a + 1)) = [a, b].indexOf a + 1 from rfl]
    rw [List.indexOf_cons, beq_self_eq_true]
    rfl
  rw [canonicalize_eq _ (by simp), hidx]
  rfl

theorem find_all_cycles_pair_eval (u v : Str) (huv : u ≠ v) (C : List Str)
    (h1 : canonicalize [u, v, u] = C) (h2 : canonicalize [v, u, v] = C) :
    find_all_cycles [(u, [v]), (v, [u])] = [C] := by
  have hr1 := find_cycles_mutual_first u v huv
  have hr2 := find_cycles_mutual_second u v huv
  show (([u, v]).foldl
      (fun st node =>
        (find_cycles_from_node [(u, [v]), (v, [u])] node).foldl dedup_step st)
      ([], [])).2 = [C]
  rw [List.foldl_cons, List.foldl_cons, List.foldl_nil, hr1, hr2,
      List.foldl_cons, List.foldl_nil, List.foldl_cons, List.foldl_nil]
  have hd1 : dedup_step ([], []) [u, v, u] = ([C], [C]) := by
    unfold dedup_step
    rw [if_neg (by simp), h1, if_neg (by simp)]
    rfl
  have hd2 : dedup_step ([C], [C]) [v, u, v] = ([C], [C]) := by
    unfold dedup_step
    rw [if_neg (by simp), h2, if_pos (by simp)]
  rw [hd1, hd2]

/-- C6. For every graph made of two artifacts that each resolve an include
to the other, cycle enumeration reports exactly one cycle containing exactly
those two artifacts — the same singleton list whichever of the two nodes the
DFS iteration starts from (both key orders of the graph map). -/
theorem find_all_cycles_mutual_pair (u v : Str) (huv : u ≠ v) :
    find_all_cycles [(u, [v]), (v, [u])] = [if u < v then [u, v] else [v, u]]
    ∧ find_all_cycles [(v, [u]), (u, [v])] = [if u < v then [u, v] else [v, u]] := by
  rcases lt_trichotomy u v with hlt | heq | hlt
  · rw [if_pos hlt]
    exact ⟨find_all_cycles_pair_eval u v huv _ (canonicalize_aba u v hlt)
        (canonicalize_bab u v hlt),
      find_all_cycles_pair_eval v u (Ne.symm huv) _ (canonicalize_bab u v hlt)
        (canonicalize_aba u v hlt)⟩
  · exact absurd heq huv
  · rw [if_neg (lt_asymm hlt)]
    exact ⟨find_all_cycles_pair_eval u v huv _ (canonicalize_bab v u hlt)
        (canonicalize_aba v u hlt),
      find_all_cycles_pair_eval v u (Ne.symm huv) _ (canonicalize_aba v u hlt)
        (canonicalize_bab v u hlt)⟩

/-- C6 (witness): the mutual-pair theorem at the spec's concrete scenario
`a/Foo.h` ↔ `a/Bar.h`. -/
theorem find_all_cycles_mutual_pair_witness :
    find_all_cycles [("a/Foo.h".data, ["a/Bar.h".data]), ("a/Bar.h".data, ["a/Foo.h".data])]
      = [if "a/Foo.h".data < "a/Bar.h".data
          then ["a/Foo.h".data, "a/Bar.h".data] else ["a/Bar.h".data, "a/Foo.h".data]]
    ∧ find_all_cycles [("a/Bar.h".data, ["a/Foo.h".data]), ("a/Foo.h".data, ["a/Bar.h".data])]
      = [if "a/Foo.h".data < "a/Bar.h".data
          then ["a/Foo.h".data, "a/Bar.h".data] else ["a/Bar.h".data, "a/Foo.h".data]] :=
  find_all_cycles_mutual_pair "a/Foo.h".data "a/Bar.h".data (by decide)

theorem lookup_of_mem_nodup {β : Type} (files : List (Str × β)) (k : Str) (v : β)
    (hnd : (files.map Prod.fst).Nodup) (hmem : (k, v) ∈ files) :
    files.lookup k = some v := by
  induction files with
  | nil => cases hmem
  | cons p t ih =>
    obtain ⟨a, b⟩ := p
    rw [List.map_cons, List.nodup_cons] at hnd
    rw [List.mem_cons] at hmem
    by_cases hk : k = a
    · subst hk
      rcases hmem with heq | hmem
      · injection heq with h1 h2
        subst h2
        rw [List.lookup_cons, beq_self_eq_true]
      · exact absurd (List.mem_map_of_mem Prod.fst hmem) hnd.1
    · rw [List.lookup_cons, show (k == a) = false from beq_false_of_ne hk]
      rcases hmem with heq | hmem
      · exact absurd (congrArg Prod.fst heq) hk
      · exact ih hnd.2 hmem

theorem map_fst_keyed_map {β γ : Type} (files : List (Str × β))
    (G : Str × β → γ) :
    (files.map (fun f => (f.1, G f))).map Prod.fst = files.map Prod.fst := by
  rw [List.map_map]
  rfl

theorem count_filterMap_broken (k raw : Str) (ln : Nat)
    (keys : List Str) (incs : List (Str × Nat))
    (hres : resolve_include raw k keys = none) :
    (incs.filterMap (fun i =>
        if (resolve_include i.1 k keys).isSome then none
        else some (BrokenInclude.mk k i.1 i.2))).count ⟨k, raw, ln⟩
      = incs.count (raw, ln) := by
  induction incs with
  | nil => rfl
  | cons i t ih =>
    obtain ⟨r, l⟩ := i
    rw [List.filterMap_cons]
    dsimp only
    by_cases hi : (r, l) = (raw, ln)
    · injection hi with h1 h2
      subst h1
      subst h2
      rw [hres]
      dsimp only [Option.isSome_none]
      rw [if_neg (by simp)]
      rw [List.count_cons, List.count_cons, ih]
      simp
    · have hrne : ¬ (r = raw ∧ l = ln) := by
        intro hcon
        exact hi (by rw [hcon.1, hcon.2])
      by_cases hs : (resolve_include r k keys).isSome
      · rw [if_pos hs]
        rw [ih, List.count_cons,
            if_neg (by simpa [Prod.ext_iff] using hrne)]
        simp
      · rw [if_neg hs]
        have hbne : (BrokenInclude.mk k r l) ≠ (BrokenInclude.mk k raw ln) := by
          intro hcon
          injection hcon with hk1 hk2 hk3
          exact hrne ⟨hk2, hk3⟩
        rw [List.count_cons, List.count_cons, ih,
            if_neg (by simpa using hbne),
            if_neg (by simpa [Prod.ext_iff] using hrne)]

theorem broken_includer_mem (files : List (Str × List (Str × Nat))) (keys : List Str)
    (b : BrokenInclude)
    (hb : b ∈ files.flatMap (fun f => f.2.filterMap (fun i =>
        if (resolve_include i.1 f.1 keys).isSome then none
        else some (BrokenInclude.mk f.1 i.1 i.2)))) :
    b.includer ∈ files.map Prod.fst := by
  rw [List.mem_flatMap] at hb
  obtain ⟨f, hf, hbf⟩ := hb
  rw [List.mem_filterMap] at hbf
  obtain ⟨i, _, hi⟩ := hbf
  have : b.includer = f.1 := by
    by_cases hs : (resolve_include i.1 f.1 keys).isSome
    · rw [if_pos hs] at hi; cases hi
    · rw [if_neg hs] at hi
      rw [← Option.some.inj hi]
  rw [this]
  exact List.mem_map_of_mem Prod.fst hf

theorem filterMap_erase_none {α β : Type} [BEq α] [LawfulBEq α]
    (l : List α) (a : α) (F : α → Option β) (hF : F a = none) :
    (l.erase a).filterMap F = l.filterMap F := by
  induction l with
  | nil => rfl
  | cons b t ih =>
    rw [List.erase_cons]
    by_cases hb : b = a
    · rw [if_pos (by simp [hb]), List.filterMap_cons, hb, hF]
    · rw [if_neg (by simp [hb]), List.filterMap_cons, List.filterMap_cons, ih]

theorem broken_count_zero (files : List (Str × List (Str × Nat))) (keys : List Str)
    (k raw : Str) (ln : Nat) (hk : k ∉ files.map Prod.fst) :
    (files.flatMap (fun f => f.2.filterMap (fun i =>
        if (resolve_include i.1 f.1 keys).isSome then none
        else some (BrokenInclude.mk f.1 i.1 i.2)))).count ⟨k, raw, ln⟩ = 0 := by
  rw [List.count_eq_zero]
  intro hmem
  exact hk (broken_includer_mem files keys _ hmem)

theorem broken_count_file_zero (keys : List Str) (k1 k raw : Str)
    (incs1 : List (Str × Nat)) (ln : Nat) (hne : k1 ≠ k) :
    (incs1.filterMap (fun i =>
        if (resolve_include i.1 k1 keys).isSome then none
        else some (BrokenInclude.mk k1 i.1 i.2))).count ⟨k, raw, ln⟩ = 0 := by
  rw [List.count_eq_zero]
  intro hmem
  rw [List.mem_filterMap] at hmem
  obtain ⟨i, _, hi⟩ := hmem
  by_cases hs : (resolve_include i.1 k1 keys).isSome
  · rw [if_pos hs] at hi; cases hi
  · rw [if_neg hs] at hi
    have := congrArg BrokenInclude.includer (Option.some.inj hi)
    exact hne this

theorem broken_count_main (files : List (Str × List (Str × Nat))) (keys : List Str)
    (k raw : Str) (incs : List (Str × Nat)) (ln : Nat)
    (hnd : (files.map Prod.fst).Nodup)
    (hmem : (k, incs) ∈ files)
    (hcount : incs.count (raw, ln) = 1)
    (hres : resolve_include raw k keys = none) :
    (files.flatMap (fun f => f.2.filterMap (fun i =>
        if (resolve_include i.1 f.1 keys).isSome then none
        else some (BrokenInclude.mk f.1 i.1 i.2)))).count ⟨k, raw, ln⟩ = 1 := by
  induction files with
  | nil => cases hmem
  | cons f t ih =>
    obtain ⟨k1, incs1⟩ := f
    rw [List.flatMap_cons, List.count_append]
    rw [List.map_cons, List.nodup_cons] at hnd
    rw [List.mem_cons] at hmem
    by_cases hk : k1 = k
    · subst hk
      have hincs : incs1 = incs := by
        rcases hmem with heq | hmem
        · injection heq with _ h2; exact h2.symm
        · exact absurd (List.mem_map_of_mem Prod.fst hmem) hnd.1
      subst hincs
      rw [count_filterMap_broken k1 raw ln keys incs1 hres, hcount,
          broken_count_zero t keys k1 raw ln hnd.1]
    · rcases hmem with heq | hmem
      · exact absurd (congrArg Prod.fst heq).symm hk
      · rw [broken_count_file_zero keys k1 k raw incs1 ln hk, ih hnd.2 hmem]

/-- C7. For a raw include that no resolution step matches,
`build_dependency_graph` records exactly one broken reference carrying the
includer's path, the literal text and the line number; it adds no edge for
it (the includer's forward adjacency is exactly the resolutions of its other
includes); and removing the failing include from the includer changes no
file's forward adjacency at all — in particular reachability is unaffected.
The builder is a total function: no input aborts the run. -/
theorem build_dependency_graph_broken_spec
    (files : List (Str × List (Str × Nat))) (k raw : Str)
    (incs : List (Str × Nat)) (ln : Nat)
    (hnd : (files.map Prod.fst).Nodup)
    (hmem : (k, incs) ∈ files)
    (hcount : incs.count (raw, ln) = 1)
    (hres : resolve_include raw k (files.map Prod.fst) = none) :
    (build_dependency_graph files).2.count ⟨k, raw, ln⟩ = 1
    ∧ (build_dependency_graph files).1.lookup k
        = some (incs.filterMap
            (fun i => resolve_include i.1 k (files.map Prod.fst)))
    ∧ (build_dependency_graph
          (files.map (fun f => if f.1 = k then (f.1, f.2.erase (raw, ln)) else f))).1
        = (build_dependency_graph files).1 := by
  refine ⟨?_, ?_, ?_⟩
  · exact broken_count_main files (files.map Prod.fst) k raw incs ln hnd hmem hcount hres
  · have hnd' : ((files.map (fun f =>
        (f.1, f.2.filterMap (fun i =>
          resolve_include i.1 f.1 (files.map Prod.fst))))).map Prod.fst).Nodup := by
      rw [map_fst_keyed_map]
      exact hnd
    exact lookup_of_mem_nodup _ k _ hnd'
      (List.mem_map_of_mem
        (fun f => (f.1, f.2.filterMap (fun i =>
          resolve_include i.1 f.1 (files.map Prod.fst)))) hmem)
  · have hkeys : (files.map
        (fun f => if f.1 = k then (f.1, f.2.erase (raw, ln)) else f)).map Prod.fst
        = files.map Prod.fst := by
      rw [List.map_map]
      apply List.map_congr_left
      intro f _
      by_cases hfk : f.1 = k
      · simp [hfk]
      · simp [hfk]
    show (files.map (fun f => if f.1 = k then (f.1, f.2.erase (raw, ln)) else f)).map
        (fun f => (f.1, f.2.filterMap (fun i => resolve_include i.1 f.1
          ((files.map (fun f => if f.1 = k then (f.1, f.2.erase (raw, ln)) else f)).map
            Prod.fst))))
      = files.map (fun f => (f.1, f.2.filterMap
          (fun i => resolve_include i.1 f.1 (files.map Prod.fst))))
    rw [hkeys, List.map_map]
    apply List.map_congr_left
    intro f hf
    dsimp only [Function.comp_apply]
    by_cases hfk : f.1 = k
    · have hlk1 : files.lookup k = some incs := lookup_of_mem_nodup files k incs hnd hmem
      have hlk2 : files.lookup k = some f.2 := by
        rw [← hfk]
        exact lookup_of_mem_nodup files f.1 f.2 hnd (by simpa using hf)
      have hf2 : f.2 = incs := by
        rw [hlk1] at hlk2
        exact (Option.some.inj hlk2).symm
      have herase : (f.2.erase (raw, ln)).filterMap
            (fun i => resolve_include i.1 f.1 (files.map Prod.fst))
          = f.2.filterMap (fun i => resolve_include i.1 f.1 (files.map Prod.fst)) := by
        apply filterMap_erase_none
        show resolve_include raw f.1 (files.map Prod.fst) = none
        rw [hfk]
        exact hres
      rw [if_pos hfk]
      dsimp only
      rw [herase]
    · rw [if_neg hfk]

/-- C7 (witness): one unresolvable include in a two-file project yields
exactly one broken record and leaves the adjacency unchanged. -/
theorem build_dependency_graph_broken_spec_witness :
    (build_dependency_graph
        [("main.cpp".data, [("lib/A.h".data, 2), ("missing/Ghost.h".data, 3)]),
         ("lib/A.h".data, [])]).2.count
        ⟨"main.cpp".data, "missing/Ghost.h".data, 3⟩ = 1
    ∧ (build_dependency_graph
        [("main.cpp".data, [("lib/A.h".data, 2), ("missing/Ghost.h".data, 3)]),
         ("lib/A.h".data, [])]).1.lookup "main.cpp".data
        = some ([("lib/A.h".data, 2), ("missing/Ghost.h".data, 3)].filterMap
            (fun i => resolve_include i.1 "main.cpp".data
              ([("main.cpp".data, [("lib/A.h".data, 2), ("missing/Ghost.h".data, 3)]),
                ("lib/A.h".data, [])].map Prod.fst)))
    ∧ (build_dependency_graph
          ([("main.cpp".data, [("lib/A.h".data, 2), ("missing/Ghost.h".data, 3)]),
            ("lib/A.h".data, [])].map
            (fun f => if f.1 = "main.cpp".data
              then (f.1, f.2.erase ("missing/Ghost.h".data, 3)) else f))).1
        = (build_dependency_graph
            [("main.cpp".data, [("lib/A.h".data, 2), ("missing/Ghost.h".data, 3)]),
             ("lib/A.h".data, [])]).1 :=
  build_dependency_graph_broken_spec
    [("main.cpp".data, [("lib/A.h".data, 2), ("missing/Ghost.h".data, 3)]),
     ("lib/A.h".data, [])]
    "main.cpp".data "missing/Ghost.h".data
    [("lib/A.h".data, 2), ("missing/Ghost.h".data, 3)] 3
    (by decide) (by decide) (by decide) (by decide)

theorem lookup_mem {β : Type} (l : List (Str × β)) (k : Str) (v : β)
    (h : l.lookup k = some v) : (k, v) ∈ l := by
  induction l with
  | nil => cases h
  | cons p t ih =>
    obtain ⟨a, b⟩ := p
    by_cases hk : k = a
    · subst hk
      rw [List.lookup_cons, beq_self_eq_true] at h
      exact List.mem_cons.mpr (Or.inl (by rw [Option.some.inj h]))
    · rw [List.lookup_cons, show (k == a) = false from beq_false_of_ne hk] at h
      exact List.mem_cons.mpr (Or.inr (ih h))

theorem lookup_mark_visited (fs : Files) (n : Str) (d : Int) (k : Str) :
    (mark_visited fs n d).lookup k
      = if k = n
        then (fs.lookup k).map (fun nd => { nd with reachable := true, depth := d })
        else fs.lookup k := by
  induction fs with
  | nil => simp [mark_visited]
  | cons p t ih =>
    obtain ⟨a, b⟩ := p
    show ((if a = n then (a, { b with reachable := true, depth := d }) else (a, b))
        :: mark_visited t n d).lookup k = _
    by_cases han : a = n
    · rw [if_pos han]
      by_cases hka : k = a
      · subst hka
        rw [List.lookup_cons, beq_self_eq_true, if_pos han,
            List.lookup_cons, beq_self_eq_true]
        rfl
      · rw [List.lookup_cons, show (k == a) = false from beq_false_of_ne hka, ih]
        by_cases hkn : k = n
        · rw [if_pos hkn, if_pos hkn,
              List.lookup_cons, show (k == a) = false from beq_false_of_ne hka]
        · rw [if_neg hkn, if_neg hkn,
              List.lookup_cons, show (k == a) = false from beq_false_of_ne hka]
    · rw [if_neg han]
      by_cases hka : k = a
      · subst hka
        rw [List.lookup_cons, beq_self_eq_true, if_neg han,
            List.lookup_cons, beq_self_eq_true]
      · rw [List.lookup_cons, show (k == a) = false from beq_false_of_ne hka, ih]
        by_cases hkn : k = n
        · rw [if_pos hkn, if_pos hkn,
              List.lookup_cons, show (k == a) = false from beq_false_of_ne hka]
        · rw [if_neg hkn, if_neg hkn,
              List.lookup_cons, show (k == a) = false from beq_false_of_ne hka]

theorem lookup_mark_entry (fs : Files) (e : Str) (k : Str) :
    (mark_entry fs e).lookup k
      = if k = e
        then (fs.lookup k).map
          (fun nd => { nd with reachable := true, depth := 0, is_entry := true })
        else fs.lookup k := by
  induction fs with
  | nil => simp [mark_entry]
  | cons p t ih =>
    obtain ⟨a, b⟩ := p
    show ((if a = e then (a, { b with reachable := true, depth := 0, is_entry := true })
        else (a, b)) :: mark_entry t e).lookup k = _
    by_cases hae : a = e
    · rw [if_pos hae]
      by_cases hka : k = a
      · subst hka
        rw [List.lookup_cons, beq_self_eq_true, if_pos hae,
            List.lookup_cons, beq_self_eq_true]
        rfl
      · rw [List.lookup_cons, show (k == a) = false from beq_false_of_ne hka, ih]
        by_cases hke : k = e
        · rw [if_pos hke, if_pos hke,
              List.lookup_cons, show (k == a) = false from beq_false_of_ne hka]
        · rw [if_neg hke, if_neg hke,
              List.lookup_cons, show (k == a) = false from beq_false_of_ne hka]
    · rw [if_neg hae]
      by_cases hka : k = a
      · subst hka
        rw [List.lookup_cons, beq_self_eq_true, if_neg hae,
            List.lookup_cons, beq_self_eq_true]
      · rw [List.lookup_cons, show (k == a) = false from beq_false_of_ne hka, ih]
        by_cases hke : k = e
        · rw [if_pos hke, if_pos hke,
              List.lookup_cons, show (k == a) = false from beq_false_of_ne hka]
        · rw [if_neg hke, if_neg hke,
              List.lookup_cons, show (k == a) = false from beq_false_of_ne hka]

theorem map_fst_mark_visited (fs : Files) (n : Str) (d : Int) :
    (mark_visited fs n d).map Prod.fst = fs.map Prod.fst := by
  unfold mark_visited
  rw [List.map_map]
  apply List.map_congr_left
  intro p _
  by_cases hp : p.1 = n
  · simp [hp]
  · simp [hp]

theorem walk_neighbors_congr (files fs : Files)
    (hdeps : ∀ k, (fs.lookup k).map FileNode.resolved_deps
        = (files.lookup k).map FileNode.resolved_deps)
    (hkeys : ∀ k, (fs.lookup k).isSome = (files.lookup k).isSome)
    (c : Str) : walk_neighbors fs c = walk_neighbors files c := by
  unfold walk_neighbors
  have hik : ∀ x, isKey fs x = isKey files x := by
    intro x
    unfold isKey
    rw [hkeys]
  rw [hdeps]
  congr 1
  · congr 1
    funext x
    rw [hik]
  · apply List.filter_congr
    intro x _
    rw [hik]

theorem walk_neighbors_isKey (fs : Files) (c b : Str)
    (hb : b ∈ walk_neighbors fs c) : isKey fs b = true := by
  unfold walk_neighbors at hb
  rw [List.mem_append] at hb
  rcases hb with hb | hb
  · exact (List.mem_filter.mp hb).2
  · have := (List.mem_filter.mp hb).2
    exact (Bool.and_eq_true _ _ |>.mp this).2

theorem isKey_mem_keys (fs : Files) (k : Str) (h : isKey fs k = true) :
    k ∈ fs.map Prod.fst := by
  unfold isKey at h
  rw [Option.isSome_iff_exists] at h
  obtain ⟨v, hv⟩ := h
  exact lookup_some_mem_keys fs k v hv

theorem reachOf_of_lookup_marked (fs : Files) (k : Str) (nd : FileNode)
    (h : fs.lookup k = some nd) : reachOf fs k = nd.reachable := by
  unfold reachOf
  rw [h]
  rfl

theorem visit_fold_spec (d : Nat) (ns : List Str) :
    ∀ (fs : Files) (vis : List Str) (q : List (Str × Nat)),
    ∃ fresh : List Str,
      (visit_fold d (fs, vis, q) ns).2.1 = vis ++ fresh
      ∧ (visit_fold d (fs, vis, q) ns).2.2 = q ++ fresh.map (fun n => (n, d + 1))
      ∧ fresh.Nodup
      ∧ (∀ n ∈ fresh, n ∈ ns ∧ n ∉ vis)
      ∧ (∀ n ∈ ns, n ∈ vis ∨ n ∈ fresh)
      ∧ (∀ k, k ∉ fresh → (visit_fold d (fs, vis, q) ns).1.lookup k = fs.lookup k)
      ∧ (∀ k ∈ fresh, (visit_fold d (fs, vis, q) ns).1.lookup k
          = (fs.lookup k).map (fun nd =>
              { nd with reachable := true, depth := Int.ofNat (d + 1) }))
      ∧ (visit_fold d (fs, vis, q) ns).1.map Prod.fst = fs.map Prod.fst := by
  induction ns with
  | nil =>
    intro fs vis q
    exact ⟨[], by simp [visit_fold], by simp [visit_fold], List.nodup_nil,
      by simp, by simp, fun k _ => rfl, by simp, rfl⟩
  | cons n ns ih =>
    intro fs vis q
    by_cases hn : n ∈ vis
    · have hstep : visit_fold d (fs, vis, q) (n :: ns) = visit_fold d (fs, vis, q) ns := by
        unfold visit_fold
        rw [List.foldl_cons, if_pos hn]
      obtain ⟨fresh, h1, h2, h3, h4, h5, h6, h7, h8⟩ := ih fs vis q
      refine ⟨fresh, hstep ▸ h1, hstep ▸ h2, h3, ?_, ?_, hstep ▸ h6, hstep ▸ h7, hstep ▸ h8⟩
      · intro m hm
        exact ⟨List.mem_cons.mpr (Or.inr (h4 m hm).1), (h4 m hm).2⟩
      · intro m hm
        rw [List.mem_cons] at hm
        rcases hm with rfl | hm
        · exact Or.inl hn
        · exact h5 m hm
    · have hstep : visit_fold d (fs, vis, q) (n :: ns)
          = visit_fold d (mark_visited fs n (Int.ofNat (d + 1)), vis ++ [n],
              q ++ [(n, d + 1)]) ns := by
        unfold visit_fold
        rw [List.foldl_cons, if_neg hn]
      obtain ⟨fresh, h1, h2, h3, h4, h5, h6, h7, h8⟩ :=
        ih (mark_visited fs n (Int.ofNat (d + 1))) (vis ++ [n]) (q ++ [(n, d + 1)])
      have hnf : n ∉ fresh := by
        intro hcon
        exact (h4 n hcon).2 (by simp)
      refine ⟨n :: fresh, ?_, ?_, ?_, ?_, ?_, ?_, ?_, ?_⟩
      · rw [hstep, h1, List.append_assoc]
        rfl
      · rw [hstep, h2, List.append_assoc]
        rfl
      · exact List.nodup_cons.mpr ⟨hnf, h3⟩
      · intro m hm
        rw [List.mem_cons] at hm
        rcases hm with rfl | hm
        · exact ⟨List.mem_cons.mpr (Or.inl rfl), hn⟩
        · refine ⟨List.mem_cons.mpr (Or.inr (h4 m hm).1), ?_⟩
          intro hcon
          exact (h4 m hm).2 (List.mem_append.mpr (Or.inl hcon))
      · intro m hm
        rw [List.mem_cons] at hm
        rcases hm with rfl | hm
        · exact Or.inr (List.mem_cons.mpr (Or.inl rfl))
        · rcases h5 m hm with hv | hf
          · rw [List.mem_append] at hv
            rcases hv with hv | hv
            · exact Or.inl hv
            · rw [List.mem_singleton] at hv
              exact Or.inr (List.mem_cons.mpr (Or.inl hv))
          · exact Or.inr (List.mem_cons.mpr (Or.inr hf))
      · intro k hk
        rw [List.mem_cons] at hk
        push_neg at hk
        rw [hstep, h6 k hk.2, lookup_mark_visited, if_neg hk.1]
      · intro k hk
        rw [List.mem_cons] at hk
        rcases hk with rfl | hk
        · rw [hstep, h6 k hnf, lookup_mark_visited, if_pos rfl]
        · rw [hstep, h7 k hk, lookup_mark_visited]
          by_cases hkn : k = n
          · subst hkn
            exact absurd hk hnf
          · rw [if_neg hkn]
      · rw [hstep, h8, map_fst_mark_visited]

theorem unvisited_count_visit (keysl : List Str) :
    ∀ (fresh vis : List Str), fresh.Nodup →
      (∀ n ∈ fresh, n ∈ keysl ∧ n ∉ vis) →
      (keysl.filter (fun k => decide (k ∉ vis ++ fresh))).length + fresh.length
        ≤ (keysl.filter (fun k => decide (k ∉ vis))).length := by
  intro fresh
  induction fresh with
  | nil =>
    intro vis _ _
    simp
  | cons n t ih =>
    intro vis hnd hsub
    rw [List.nodup_cons] at hnd
    have hstep := unvis_filter_step keysl n vis (vis ++ [n]) (hsub n (by simp)).1
      (hsub n (by simp)).2 (fun x => by
        rw [List.mem_append, List.mem_singleton]
        constructor
        · rintro (h | h)
          · exact Or.inr h
          · exact Or.inl h
        · rintro (h | h)
          · exact Or.inr h
          · exact Or.inl h)
    have hih := ih (vis ++ [n]) hnd.2 (fun m hm => by
      refine ⟨(hsub m (by simp [hm])).1, ?_⟩
      rw [List.mem_append, List.mem_singleton]
      rintro (h | h)
      · exact (hsub m (by simp [hm])).2 h
      · exact hnd.1 (h ▸ hm))
    have hassoc : vis ++ n :: t = (vis ++ [n]) ++ t := by simp
    rw [hassoc]
    calc (keysl.filter (fun k => decide (k ∉ (vis ++ [n]) ++ t))).length + (n :: t).length
        = ((keysl.filter (fun k => decide (k ∉ (vis ++ [n]) ++ t))).length + t.length) + 1 := by
          simp [Nat.add_comm, Nat.add_assoc, Nat.add_left_comm]
      _ ≤ (keysl.filter (fun k => decide (k ∉ vis ++ [n]))).length + 1 :=
          Nat.add_le_add_right hih 1
      _ ≤ (keysl.filter (fun k => decide (k ∉ vis))).length := hstep

theorem map_const_replicate {α β : Type} (l : List α) (c : β) :
    l.map (fun _ => c) = List.replicate l.length c := by
  induction l with
  | nil => rfl
  | cons x t ih => rw [List.map_cons, List.length_cons, List.replicate_succ, ih]

theorem isKey_congr (files fs : Files)
    (hkeys : ∀ k, (fs.lookup k).isSome = (files.lookup k).isSome) (k : Str) :
    isKey fs k = isKey files k := by
  unfold isKey
  rw [hkeys]

theorem walk_loop_post (files : Files) (entries : List Str) :
    ∀ (fuel : Nat) (queue : List (Str × Nat)) (visited : List Str) (fs : Files),
      WalkInv files entries queue visited fs →
      unvisited_count fs visited + queue.length ≤ fuel →
      WalkInv files entries [] (walk_loop fuel queue visited fs).2
          (walk_loop fuel queue visited fs).1
      ∧ visited ⊆ (walk_loop fuel queue visited fs).2 := by
  intro fuel
  induction fuel with
  | zero =>
    intro queue visited fs hInv hfuel
    have hq : queue = [] := by
      rw [Nat.le_zero] at hfuel
      exact List.length_eq_zero.mp (by omega)
    subst hq
    exact ⟨hInv, fun _ h => h⟩
  | succ fuel ih =>
    intro queue visited fs hInv hfuel
    match queue with
    | [] => exact ⟨hInv, fun _ h => h⟩
    | (current, d) :: rest =>
      obtain ⟨fresh, hv, hq, hnd, hmem, hcov, hunt, hmark, hfst⟩ :=
        visit_fold_spec d (walk_neighbors fs current) fs visited []
      rw [List.nil_append] at hq
      have hwn : walk_neighbors fs current = walk_neighbors files current :=
        walk_neighbors_congr files fs hInv.deps_eq hInv.keys_eq current
      obtain ⟨hcurvis, hcurd⟩ := hInv.queue_vis (current, d) (List.mem_cons.mpr (Or.inl rfl))
      have hfreshKeyFs : ∀ n ∈ fresh, isKey fs n = true :=
        fun n hn => walk_neighbors_isKey fs current n (hmem n hn).1
      have hfreshKey : ∀ n ∈ fresh, isKey files n = true := by
        intro n hn
        rw [← isKey_congr files fs hInv.keys_eq]
        exact hfreshKeyFs n hn
      have hfreshNotVis : ∀ n ∈ fresh, n ∉ visited := fun n hn => (hmem n hn).2
      have hvisNotFresh : ∀ x ∈ visited, x ∉ fresh :=
        fun x hx hcon => hfreshNotVis x hcon hx
      set st := visit_fold d (fs, visited, []) (walk_neighbors fs current) with hst
      have hdepthu : ∀ x, x ∉ fresh → depthOf st.1 x = depthOf fs x := by
        intro x hx
        unfold depthOf
        rw [hunt x hx]
      have hreachu : ∀ x, x ∉ fresh → reachOf st.1 x = reachOf fs x := by
        intro x hx
        unfold reachOf
        rw [hunt x hx]
      have hfreshlook : ∀ x ∈ fresh, ∃ nd, fs.lookup x = some nd := by
        intro x hx
        have := hfreshKeyFs x hx
        unfold isKey at this
        rw [Option.isSome_iff_exists] at this
        exact this
      have hdepthf : ∀ x ∈ fresh, depthOf st.1 x = Int.ofNat (d + 1) := by
        intro x hx
        obtain ⟨nd, hnd'⟩ := hfreshlook x hx
        unfold depthOf
        rw [hmark x hx, hnd']
        rfl
      have hreachf : ∀ x ∈ fresh, reachOf st.1 x = true := by
        intro x hx
        obtain ⟨nd, hnd'⟩ := hfreshlook x hx
        unfold reachOf
        rw [hmark x hx, hnd']
        rfl
      -- analyse the queue depth shape at the popped element
      obtain ⟨D, a, b, hmap, hbnd⟩ := hInv.shape
      have hsnd : (fresh.map (fun n => (n, d + 1))).map Prod.snd
          = List.replicate fresh.length (d + 1) := by
        rw [List.map_map]
        exact map_const_replicate fresh (d + 1)
      have hcases : (∀ x ∈ visited, depthOf fs x ≤ Int.ofNat d + 1)
          ∧ ∃ a' b', (rest ++ st.2.2).map Prod.snd
              = List.replicate a' d ++ List.replicate b' (d + 1) := by
        rw [List.map_cons] at hmap
        match a, hmap with
        | 0, hmap =>
          rw [List.replicate, List.nil_append] at hmap
          match b, hmap with
          | 0, hmap => cases hmap
          | b' + 1, hmap =>
            rw [List.replicate_succ] at hmap
            have hd : d = D + 1 := (List.cons.inj hmap).1
            have hrest : rest.map Prod.snd = List.replicate b' (D + 1) :=
              (List.cons.inj hmap).2
            constructor
            · intro x hx
              calc depthOf fs x ≤ Int.ofNat D + 1 := hbnd x hx
                _ ≤ Int.ofNat d + 1 := by
                    rw [hd]
                    simp only [Int.ofNat_eq_natCast]
                    omega
            · refine ⟨b', fresh.length, ?_⟩
              rw [List.map_append, hrest, hq, hsnd, hd]
        | a' + 1, hmap =>
          rw [List.replicate_succ, List.cons_append] at hmap
          have hd : d = D := (List.cons.inj hmap).1
          have hrest : rest.map Prod.snd
              = List.replicate a' D ++ List.replicate b (D + 1) :=
            (List.cons.inj hmap).2
          constructor
          · intro x hx
            rw [hd]
            exact hbnd x hx
          · refine ⟨a', b + fresh.length, ?_⟩
            rw [List.map_append, hrest, hq, hsnd, hd, List.append_assoc,
                ← List.replicate_add]
      obtain ⟨hvisbound, a'', b'', hshape'⟩ := hcases
      -- the new invariant
      have hInv' : WalkInv files entries (rest ++ st.2.2) st.2.1 st.1 := by
        refine ⟨?_, ?_, ?_, ?_, ?_, ?_, ?_, ?_⟩
        · intro k
          by_cases hk : k ∈ fresh
          · obtain ⟨nd, hnd'⟩ := hfreshlook k hk
            rw [hmark k hk, hnd', ← hInv.deps_eq k, hnd']
            rfl
          · rw [hunt k hk]
            exact hInv.deps_eq k
        · intro k
          by_cases hk : k ∈ fresh
          · obtain ⟨nd, hnd'⟩ := hfreshlook k hk
            rw [hmark k hk, hnd', ← hInv.keys_eq k, hnd']
            rfl
          · rw [hunt k hk]
            exact hInv.keys_eq k
        · intro x hx
          rw [hv, List.mem_append] at hx
          rcases hx with hx | hx
          · obtain ⟨k1, k2, k3, k4⟩ := hInv.vis_spec x hx
            rw [hreachu x (hvisNotFresh x hx), hdepthu x (hvisNotFresh x hx)]
            exact ⟨k1, k2, k3, k4⟩
          · refine ⟨hfreshKey x hx, hreachf x hx, ?_, ?_⟩
            · rw [hdepthf x hx]
              simp only [Int.ofNat_eq_natCast]
              omega
            · rw [hdepthf x hx]
              have hcurN : ReachN files entries d current := by
                obtain ⟨_, _, _, k4⟩ := hInv.vis_spec current hcurvis
                rw [hcurd] at k4
                simpa using k4
              have : ReachN files entries (d + 1) x :=
                ReachN.step hcurN (hwn ▸ (hmem x hx).1)
              simpa using this
        · intro x hx
          rw [hv] at hx
          have hx1 : x ∉ visited := fun h => hx (List.mem_append.mpr (Or.inl h))
          have hx2 : x ∉ fresh := fun h => hx (List.mem_append.mpr (Or.inr h))
          rw [hunt x hx2]
          exact hInv.untouched x hx1
        · intro qe hqe
          rw [List.mem_append] at hqe
          rcases hqe with hqe | hqe
          · obtain ⟨j1, j2⟩ := hInv.queue_vis qe (List.mem_cons.mpr (Or.inr hqe))
            refine ⟨hv ▸ List.mem_append.mpr (Or.inl j1), ?_⟩
            rw [hdepthu qe.1 (hvisNotFresh qe.1 j1)]
            exact j2
          · rw [hq, List.mem_map] at hqe
            obtain ⟨n, hn, hqe⟩ := hqe
            subst hqe
            refine ⟨hv ▸ List.mem_append.mpr (Or.inr hn), hdepthf n hn⟩
        · refine ⟨d, a'', b'', hshape', ?_⟩
          intro x hx
          rw [hv, List.mem_append] at hx
          rcases hx with hx | hx
          · rw [hdepthu x (hvisNotFresh x hx)]
            exact hvisbound x hx
          · rw [hdepthf x hx]
            simp only [Int.ofNat_eq_natCast]
            omega
        · intro x hx htrig
          rw [hv, List.mem_append] at hx
          rcases hx with hx | hx
          · by_cases hxc : x = current
            · subst hxc
              intro nb hnb
              rw [← hwn] at hnb
              rcases hcov nb hnb with hnbv | hnbf
              · refine ⟨hv ▸ List.mem_append.mpr (Or.inl hnbv), ?_⟩
                rw [hdepthu nb (hvisNotFresh nb hnbv),
                    hdepthu x (hvisNotFresh x hx), hcurd]
                exact hvisbound nb hnbv
              · refine ⟨hv ▸ List.mem_append.mpr (Or.inr hnbf), ?_⟩
                rw [hdepthf nb hnbf, hdepthu x (hvisNotFresh x hx), hcurd]
                simp only [Int.ofNat_eq_natCast]
                omega
            · have htrig' : ∀ d', (x, d') ∉ (current, d) :: rest := by
                intro d' hcon
                rw [List.mem_cons] at hcon
                rcases hcon with hcon | hcon
                · exact hxc (congrArg Prod.fst hcon)
                · exact htrig d' (List.mem_append.mpr (Or.inl hcon))
              intro nb hnb
              obtain ⟨j1, j2⟩ := hInv.closures x hx htrig' nb hnb
              refine ⟨hv ▸ List.mem_append.mpr (Or.inl j1), ?_⟩
              rw [hdepthu nb (hvisNotFresh nb j1), hdepthu x (hvisNotFresh x hx)]
              exact j2
          · exfalso
            apply htrig (d + 1)
            rw [List.mem_append, hq]
            exact Or.inr (List.mem_map.mpr ⟨x, hx, rfl⟩)
        · intro e he hke
          obtain ⟨j1, j2⟩ := hInv.entries_vis e he hke
          refine ⟨hv ▸ List.mem_append.mpr (Or.inl j1), ?_⟩
          rw [hdepthu e (hvisNotFresh e j1)]
          exact j2
      -- the measure decreases
      have hmeasure : unvisited_count st.1 st.2.1 + (rest ++ st.2.2).length ≤ fuel := by
        have hucv : unvisited_count st.1 st.2.1 = unvisited_count fs (visited ++ fresh) := by
          unfold unvisited_count
          rw [hfst, hv]
        have hlt := unvisited_count_visit (fs.map Prod.fst) fresh visited hnd
          (fun n hn => ⟨isKey_mem_keys fs n (hfreshKeyFs n hn), hfreshNotVis n hn⟩)
        have hlen : (rest ++ st.2.2).length = rest.length + fresh.length := by
          rw [List.length_append, hq, List.length_map]
        have hq0 : ((current, d) :: rest).length = rest.length + 1 := by
          rw [List.length_cons]
        unfold unvisited_count at hucv ⊢
        rw [hucv, hlen]
        unfold unvisited_count at hfuel
        rw [hq0] at hfuel
        omega
      have hrec := ih (rest ++ st.2.2) st.2.1 st.1 hInv' hmeasure
      have hstep : walk_loop (fuel + 1) ((current, d) :: rest) visited fs
          = walk_loop fuel (rest ++ st.2.2) st.2.1 st.1 := rfl
      rw [hstep]
      refine ⟨hrec.1, ?_⟩
      intro x hx
      exact hrec.2 (hv ▸ List.mem_append.mpr (Or.inl hx))

theorem seed_fold_post (files : Files) (entries : List Str) :
    ∀ (todo : List Str) (fs : Files) (vis : List Str) (q : List (Str × Nat)),
      (∀ e ∈ todo, e ∈ entries) →
      SeedInv files entries fs vis q →
      SeedInv files entries (todo.foldl seed_step (fs, vis, q)).1
          (todo.foldl seed_step (fs, vis, q)).2.1 (todo.foldl seed_step (fs, vis, q)).2.2
      ∧ (∀ e ∈ todo, isKey files e = true → e ∈ (todo.foldl seed_step (fs, vis, q)).2.1)
      ∧ (∀ x ∈ vis, x ∈ (todo.foldl seed_step (fs, vis, q)).2.1) := by
  intro todo
  induction todo with
  | nil =>
    intro fs vis q _ hInv
    exact ⟨hInv, by simp, fun x hx => hx⟩
  | cons e rest ih =>
    intro fs vis q htodo hInv
    have hstep : (e :: rest).foldl seed_step (fs, vis, q)
        = rest.foldl seed_step (seed_step (fs, vis, q) e) := List.foldl_cons _ _
    by_cases hk : isKey fs e = true
    · have hkfiles : isKey files e = true := by
        rw [← isKey_congr files fs hInv.keys_eq]
        exact hk
      have hlook : ∃ nd, fs.lookup e = some nd := by
        have := hk
        unfold isKey at this
        rw [Option.isSome_iff_exists] at this
        exact this
      obtain ⟨nd, hnd⟩ := hlook
      have hsimp : seed_step (fs, vis, q) e
          = (mark_entry fs e, (if e ∈ vis then vis else vis ++ [e]), q ++ [(e, 0)]) := by
        unfold seed_step
        rw [if_pos hk]
      set vis' := if e ∈ vis then vis else vis ++ [e] with hvis'
      have hevis' : e ∈ vis' := by
        rw [hvis']
        by_cases hev : e ∈ vis
        · rw [if_pos hev]; exact hev
        · rw [if_neg hev]; simp
      have hsub : ∀ x ∈ vis, x ∈ vis' := by
        intro x hx
        rw [hvis']
        by_cases hev : e ∈ vis
        · rw [if_pos hev]; exact hx
        · rw [if_neg hev]; simp [hx]
      have hsup : ∀ x ∈ vis', x ∈ vis ∨ x = e := by
        intro x hx
        rw [hvis'] at hx
        by_cases hev : e ∈ vis
        · rw [if_pos hev] at hx; exact Or.inl hx
        · rw [if_neg hev] at hx
          rw [List.mem_append, List.mem_singleton] at hx
          exact hx
      have hInv' : SeedInv files entries (mark_entry fs e) vis' (q ++ [(e, 0)]) := by
        refine ⟨?_, ?_, ?_, ?_, ?_, ?_⟩
        · intro k
          rw [lookup_mark_entry]
          by_cases hke : k = e
          · rw [if_pos hke, hke, hnd, ← hInv.deps_eq e, hnd]
            rfl
          · rw [if_neg hke]
            exact hInv.deps_eq k
        · intro k
          rw [lookup_mark_entry]
          by_cases hke : k = e
          · rw [if_pos hke, hke, hnd, ← hInv.keys_eq e, hnd]
            rfl
          · rw [if_neg hke]
            exact hInv.keys_eq k
        · intro x hx
          by_cases hxe : x = e
          · subst hxe
            refine ⟨htodo x (by simp), hkfiles, ?_, ?_⟩
            · unfold reachOf
              rw [lookup_mark_entry, if_pos rfl, hnd]
              rfl
            · unfold depthOf
              rw [lookup_mark_entry, if_pos rfl, hnd]
              rfl
          · rcases hsup x hx with hxv | hxe'
            · obtain ⟨j1, j2, j3, j4⟩ := hInv.vis_spec x hxv
              refine ⟨j1, j2, ?_, ?_⟩
              · unfold reachOf
                rw [lookup_mark_entry, if_neg hxe]
                exact j3
              · unfold depthOf
                rw [lookup_mark_entry, if_neg hxe]
                exact j4
            · exact absurd hxe' hxe
        · intro x hx
          have hxe : x ≠ e := fun hcon => hx (hcon ▸ hevis')
          have hxv : x ∉ vis := fun hcon => hx (hsub x hcon)
          rw [lookup_mark_entry, if_neg hxe]
          exact hInv.untouched x hxv
        · intro qe hqe
          rw [List.mem_append, List.mem_singleton] at hqe
          rcases hqe with hqe | hqe
          · obtain ⟨j1, j2⟩ := hInv.queue_spec qe hqe
            exact ⟨hsub qe.1 j1, j2⟩
          · subst hqe
            exact ⟨hevis', rfl⟩
        · intro x hx
          rcases hsup x hx with hxv | hxe
          · obtain ⟨dd, hdd⟩ := hInv.vis_q x hxv
            exact ⟨dd, List.mem_append.mpr (Or.inl hdd)⟩
          · subst hxe
            exact ⟨0, List.mem_append.mpr (Or.inr (by simp))⟩
      have hrec := ih (mark_entry fs e) vis' (q ++ [(e, 0)])
        (fun x hx => htodo x (by simp [hx])) hInv'
      rw [hstep, hsimp]
      refine ⟨hrec.1, ?_, ?_⟩
      · intro e' he' hke'
        rw [List.mem_cons] at he'
        rcases he' with rfl | he'
        · exact hrec.2.2 e' hevis'
        · exact hrec.2.1 e' he' hke'
      · intro x hx
        exact hrec.2.2 x (hsub x hx)
    · have hkfiles : isKey files e ≠ true := by
        rw [← isKey_congr files fs hInv.keys_eq]
        exact hk
      have hsimp : seed_step (fs, vis, q) e = (fs, vis, q) := by
        unfold seed_step
        rw [if_neg hk]
      have hrec := ih fs vis q (fun x hx => htodo x (by simp [hx])) hInv
      rw [hstep, hsimp]
      refine ⟨hrec.1, ?_, hrec.2.2⟩
      intro e' he' hke'
      rw [List.mem_cons] at he'
      rcases he' with rfl | he'
      · exact absurd hke' hkfiles
      · exact hrec.2.1 e' he' hke'

theorem map_snd_zero (q : List (Str × Nat)) (h : ∀ qe ∈ q, qe.2 = 0) :
    q.map Prod.snd = List.replicate q.length 0 := by
  induction q with
  | nil => rfl
  | cons qe t ih =>
    rw [List.map_cons, List.length_cons, List.replicate_succ,
        h qe (by simp), ih (fun x hx => h x (by simp [hx]))]

theorem seed_establishes_inv (files : Files) (entries : List Str) :
    WalkInv files entries (seed_entries files entries).2.2
      (seed_entries files entries).2.1 (seed_entries files entries).1 := by
  have hinit : SeedInv files entries files [] [] :=
    ⟨fun _ => rfl, fun _ => rfl, by simp, fun _ _ => rfl, by simp, by simp⟩
  obtain ⟨hS, hcover, _⟩ :=
    seed_fold_post files entries entries files [] [] (fun _ h => h) hinit
  unfold seed_entries
  refine ⟨hS.deps_eq, hS.keys_eq, ?_, hS.untouched, ?_, ?_, ?_, ?_⟩
  · intro x hx
    obtain ⟨j1, j2, j3, j4⟩ := hS.vis_spec x hx
    refine ⟨j2, j3, by rw [j4], ?_⟩
    rw [j4]
    exact ReachN.entry x j1 j2
  · intro qe hqe
    obtain ⟨j1, j2⟩ := hS.queue_spec qe hqe
    refine ⟨j1, ?_⟩
    rw [(hS.vis_spec qe.1 j1).2.2.2, j2]
    rfl
  · refine ⟨0, (entries.foldl seed_step (files, [], [])).2.2.length, 0, ?_, ?_⟩
    · rw [map_snd_zero _ (fun qe hqe => (hS.queue_spec qe hqe).2)]
      simp
    · intro x hx
      rw [(hS.vis_spec x hx).2.2.2]
      simp
  · intro x hx htrig
    obtain ⟨dd, hdd⟩ := hS.vis_q x hx
    exact absurd hdd (htrig dd)
  · intro e he hke
    refine ⟨hcover e he hke, ?_⟩
    have := hS.vis_spec e (hcover e he hke)
    exact this.2.2.2

theorem reachOf_false_of_init (files : Files)
    (hinit : ∀ p ∈ files, p.2.reachable = false) (x : Str) :
    reachOf files x = false := by
  unfold reachOf
  match h : files.lookup x with
  | none => rfl
  | some nd =>
    have := hinit (x, nd) (lookup_mem files x nd h)
    simpa using this

theorem depthOf_neg_of_init (files : Files)
    (hinit : ∀ p ∈ files, p.2.depth = -1) (x : Str) :
    depthOf files x = -1 := by
  unfold depthOf
  match h : files.lookup x with
  | none => rfl
  | some nd =>
    have := hinit (x, nd) (lookup_mem files x nd h)
    simpa using this

theorem walk_post_complete (files : Files) (entries : List Str)
    (vis : List Str) (fs : Files)
    (hpost : WalkInv files entries [] vis fs) :
    ∀ (m : Nat) (x : Str), ReachN files entries m x →
      x ∈ vis ∧ depthOf fs x ≤ (m : Int) := by
  intro m x h
  induction h with
  | entry e he hke =>
    obtain ⟨j1, j2⟩ := hpost.entries_vis e he hke
    refine ⟨j1, ?_⟩
    rw [j2]
    simp
  | step hN hnb ih =>
    obtain ⟨j1, j2⟩ := hpost.closures _ ih.1 (fun d hd => (List.not_mem_nil _ hd)) _ hnb
    refine ⟨j1, ?_⟩
    have := ih.2
    push_cast
    push_cast at this
    omega

theorem walk_post_sound (files : Files) (entries : List Str)
    (vis : List Str) (fs : Files)
    (hpost : WalkInv files entries [] vis fs)
    (hinit : ∀ p ∈ files, p.2.reachable = false)
    (x : Str) (hx : reachOf fs x = true) : x ∈ vis := by
  by_contra hnv
  have huntouched := hpost.untouched x hnv
  have h0 : reachOf files x = false := reachOf_false_of_init files hinit x
  unfold reachOf at hx h0
  rw [huntouched] at hx
  rw [hx] at h0
  cases h0

/-- C1. After `walk_reachability`, an artifact is marked reachable exactly
when a path of forward resolved-include edges and/or sibling-pairing edges
(same directory, same filename stem, another configured extension — the
`walk_neighbors` relation) leads from some entry point present in the files
dict to it.  The hypothesis is the state discovery creates: every node starts
with `reachable = False`. -/
theorem walk_reachability_reachable_iff (files : Files) (entries : List Str)
    (hinit : ∀ p ∈ files, p.2.reachable = false) (x : Str) :
    reachOf (walk_reachability files entries).1 x = true
      ↔ ∃ n, ReachN files entries n x := by
  obtain ⟨hpost, hsub⟩ := walk_loop_post files entries
    (unvisited_count (seed_entries files entries).1 (seed_entries files entries).2.1
      + (seed_entries files entries).2.2.length)
    (seed_entries files entries).2.2 (seed_entries files entries).2.1
    (seed_entries files entries).1
    (seed_establishes_inv files entries) (le_refl _)
  constructor
  · intro hreach
    have hx := walk_post_sound files entries _ _ hpost hinit x hreach
    obtain ⟨_, _, _, j4⟩ := hpost.vis_spec x hx
    exact ⟨_, j4⟩
  · rintro ⟨n, hn⟩
    have hx := (walk_post_complete files entries _ _ hpost n x hn).1
    exact (hpost.vis_spec x hx).2.1

/-- C1 (witness): in the Widget fixture, `lib/Widget.cpp` is marked
reachable, so a path of include and sibling-pairing edges reaches it. -/
theorem walk_reachability_reachable_iff_witness :
    ∃ n, ReachN widgetFiles ["main.cpp".data] n "lib/Widget.cpp".data :=
  (walk_reachability_reachable_iff widgetFiles ["main.cpp".data]
    (by decide) "lib/Widget.cpp".data).mp (by decide)

/-- C3. For every artifact the walk marks reachable, the assigned depth is
the minimum number of hops from any entry point over forward
resolved-include edges and sibling-pairing edges: a walk of exactly that
many steps exists, and no shorter walk reaches the artifact. -/
theorem walk_reachability_depth_shortest (files : Files) (entries : List Str)
    (hinit : ∀ p ∈ files, p.2.reachable = false) (x : Str)
    (hx : reachOf (walk_reachability files entries).1 x = true) :
    ReachN files entries (depthOf (walk_reachability files entries).1 x).toNat x
    ∧ ∀ m, ReachN files entries m x →
        depthOf (walk_reachability files entries).1 x ≤ (m : Int) := by
  obtain ⟨hpost, hsub⟩ := walk_loop_post files entries
    (unvisited_count (seed_entries files entries).1 (seed_entries files entries).2.1
      + (seed_entries files entries).2.2.length)
    (seed_entries files entries).2.2 (seed_entries files entries).2.1
    (seed_entries files entries).1
    (seed_establishes_inv files entries) (le_refl _)
  have hvis := walk_post_sound files entries _ _ hpost hinit x hx
  refine ⟨(hpost.vis_spec x hvis).2.2.2, ?_⟩
  intro m hm
  exact (walk_post_complete files entries _ _ hpost m x hm).2

/-- C3 (witness): in the Widget fixture, `lib/Widget.cpp` — reached only via
the sibling pairing of `lib/Widget.h` — has a 2-hop walk and no 1-hop walk,
matching its reported depth 2. -/
theorem walk_reachability_depth_shortest_witness :
    ReachN widgetFiles ["main.cpp".data] 2 "lib/Widget.cpp".data
    ∧ ¬ ReachN widgetFiles ["main.cpp".data] 1 "lib/Widget.cpp".data := by
  have h := walk_reachability_depth_shortest widgetFiles ["main.cpp".data]
    (by decide) "lib/Widget.cpp".data (by decide)
  have hd : depthOf (walk_reachability widgetFiles ["main.cpp".data]).1
      "lib/Widget.cpp".data = 2 := by decide
  constructor
  · have h1 := h.1
    rw [hd] at h1
    exact h1
  · intro hc
    have h2 := h.2 1 hc
    rw [hd] at h2
    norm_num at h2

/-- C9. Starting from the state discovery creates (`reachable = False`,
`depth = -1` on every node), after `walk_reachability` every artifact
satisfies `reachable ⟺ depth ≥ 0` and `¬reachable ⟺ depth = -1`: the
only operations that set `reachable` (entry seeding and BFS visiting)
simultaneously assign a non-negative depth, and nothing else touches either
field. -/
theorem walk_reachability_flag_depth_invariant (files : Files) (entries : List Str)
    (hinit : ∀ p ∈ files, p.2.reachable = false ∧ p.2.depth = -1) (x : Str) :
    (reachOf (walk_reachability files entries).1 x = true
      ↔ 0 ≤ depthOf (walk_reachability files entries).1 x)
    ∧ (reachOf (walk_reachability files entries).1 x = false
      ↔ depthOf (walk_reachability files entries).1 x = -1) := by
  obtain ⟨hpost, hsub⟩ := walk_loop_post files entries
    (unvisited_count (seed_entries files entries).1 (seed_entries files entries).2.1
      + (seed_entries files entries).2.2.length)
    (seed_entries files entries).2.2 (seed_entries files entries).2.1
    (seed_entries files entries).1
    (seed_establishes_inv files entries) (le_refl _)
  have hr : ∀ hx : reachOf (walk_reachability files entries).1 x = true,
      0 ≤ depthOf (walk_reachability files entries).1 x := by
    intro hx
    have hvis := walk_post_sound files entries _ _ hpost
      (fun p hp => (hinit p hp).1) x hx
    exact (hpost.vis_spec x hvis).2.2.1
  have hnr : ∀ hx : reachOf (walk_reachability files entries).1 x = false,
      depthOf (walk_reachability files entries).1 x = -1 := by
    intro hx
    have hnv : x ∉ (walk_loop (unvisited_count (seed_entries files entries).1
        (seed_entries files entries).2.1 + (seed_entries files entries).2.2.length)
        (seed_entries files entries).2.2 (seed_entries files entries).2.1
        (seed_entries files entries).1).2 := by
      intro hcon
      have := (hpost.vis_spec x hcon).2.1
      rw [show reachOf (walk_loop (unvisited_count (seed_entries files entries).1
          (seed_entries files entries).2.1 + (seed_entries files entries).2.2.length)
          (seed_entries files entries).2.2 (seed_entries files entries).2.1
          (seed_entries files entries).1).1 x
          = reachOf (walk_reachability files entries).1 x from rfl] at this
      rw [hx] at this
      cases this
    have huntouched := hpost.untouched x hnv
    have h0 : depthOf files x = -1 :=
      depthOf_neg_of_init files (fun p hp => (hinit p hp).2) x
    unfold depthOf at h0 ⊢
    rw [show (walk_reachability files entries).1.lookup x
        = (walk_loop (unvisited_count (seed_entries files entries).1
          (seed_entries files entries).2.1 + (seed_entries files entries).2.2.length)
          (seed_entries files entries).2.2 (seed_entries files entries).2.1
          (seed_entries files entries).1).1.lookup x from rfl, huntouched]
    exact h0
  constructor
  · constructor
    · exact hr
    · intro hd
      by_cases hx : reachOf (walk_reachability files entries).1 x = true
      · exact hx
      · rw [Bool.not_eq_true] at hx
        have := hnr hx
        rw [this] at hd
        norm_num at hd
  · constructor
    · exact hnr
    · intro hd
      by_cases hx : reachOf (walk_reachability files entries).1 x = true
      · have := hr hx
        rw [hd] at this
        norm_num at this
      · rwa [Bool.not_eq_true] at hx

/-- C9 (witness): the invariant at a concrete fixture and artifact. -/
theorem walk_reachability_flag_depth_invariant_witness :
    (reachOf (walk_reachability widgetFiles ["main.cpp".data]).1 "lib/Widget.cpp".data = true
      ↔ 0 ≤ depthOf (walk_reachability widgetFiles ["main.cpp".data]).1 "lib/Widget.cpp".data)
    ∧ (reachOf (walk_reachability widgetFiles ["main.cpp".data]).1 "lib/Widget.cpp".data = false
      ↔ depthOf (walk_reachability widgetFiles ["main.cpp".data]).1 "lib/Widget.cpp".data = -1) :=
  walk_reachability_flag_depth_invariant widgetFiles ["main.cpp".data]
    (by decide) "lib/Widget.cpp".data
